import Mathlib

/-!
# SCRFD face detector with 106-point landmarks: geometric pipeline

A shallow embedding of `app/src/main/jni/scrfd.cpp` (and `scrfd.h`).

Conventions of the embedding

* `float` / `double` values are exact rationals (`ℚ`): rounding, infinities and NaN inputs
  are not represented, with the exceptions below.  The single place where the program
  divides by a quantity that can be zero inside a comparison
  (`inter_area / union_area > nms_threshold`) is modelled with the IEEE-754 outcome of that
  division (`FloatDiv`); `pre_process`, whose divisor can be zero as well, returns `none`
  when its result is not a finite matrix.
* Rounding to binary32 (`f32`: nearest, ties to even) is represented where it decides a
  discrete outcome on ordinary inputs. (1) The resized side `h = h * scale` of the
  letterbox, a computed `float` truncated to an `int` (29×29 is resized to 119×120): every
  `float` operation of `letterbox` rounds its exact result. (2) The quotient
  `inter_area / union_area` that the suppression test compares strictly with the
  threshold: for a 9×1 box inside a 20×1 box the quotient `9 / 20` rounds to the binary32
  value of `0.45` and so does not exceed that threshold. Every `float` operation of
  `nms_sorted_bboxes` rounds: the areas, the sum and the difference of the union area, the
  quotient. The rectangle intersection of OpenCV (library code, whose order of operations
  depends on the OpenCV version) has exact coordinates.
* `sqrt` returns the binary32 square root (`fsqrt`). `generate_anchors` converts a `float`
  to `int`; for the ratio `1` and base sizes below `2^24` that `float` is exact.
* `int` values are `Int`, sizes and loop counters are `Nat`; the feature maps and candidate
  lists are far below `2^31`, so no wrap-around is modelled.
* `std::vector<T>` is `List T`; `push_back` appends at the end.
* a counted loop `for (int k = 0; k < n; k++)` is a left fold over `List.range n`.
* the two neural networks are external: their output tensors are inputs of the model.
-/

namespace SCRFD

/-! ## Data model (`scrfd.h`, OpenCV and ncnn value types) -/

/-- The type `cv::Point2f`. -/
structure Point2f where
  x : ℚ
  y : ℚ
deriving DecidableEq

/-- The type `cv::Rect_<float>`: top-left corner, width and height. -/
structure Rect where
  x : ℚ
  y : ℚ
  width : ℚ
  height : ℚ
deriving DecidableEq

/-- The member `cv::Point2f landmark[5]` of `FaceObject`. -/
structure Landmark5 where
  p0 : Point2f
  p1 : Point2f
  p2 : Point2f
  p3 : Point2f
  p4 : Point2f
deriving DecidableEq

/-- Indexing `landmark[k]`, for `k < 5`. -/
def Landmark5.get (l : Landmark5) (k : Nat) : Point2f :=
  match k with
  | 0 => l.p0
  | 1 => l.p1
  | 2 => l.p2
  | 3 => l.p3
  | _ => l.p4

/-- The struct `FaceObject` of `scrfd.h`. -/
structure FaceObject where
  rect : Rect
  landmark : Landmark5
  prob : ℚ
deriving DecidableEq

/-- A default-constructed `FaceObject obj;`: OpenCV zero-initialises `Rect_` and `Point_`
(`prob` is assigned before it is read). -/
def FaceObject.zero : FaceObject :=
  ⟨⟨0, 0, 0, 0⟩, ⟨⟨0, 0⟩, ⟨0, 0⟩, ⟨0, 0⟩, ⟨0, 0⟩, ⟨0, 0⟩⟩, 0⟩

instance : Inhabited FaceObject := ⟨FaceObject.zero⟩

/-- An `ncnn::Mat` as the decoder reads it: the dims and `channel(c)[index]`. -/
structure Mat where
  w : Nat
  h : Nat
  c : Nat
  data : Nat → Nat → ℚ

/-- The test `ncnn::Mat::empty()`: no data or `total() == 0`. -/
def Mat.empty (m : Mat) : Bool := decide (m.w * m.h * m.c = 0)

/-- A default-constructed `ncnn::Mat` (what `kps_blob` stays when `has_kps` is false). -/
def Mat.none : Mat := ⟨0, 0, 0, fun _ _ => 0⟩

/-- One row `(anchor[0], anchor[1], anchor[2], anchor[3])` of the anchors matrix. -/
structure Anchor where
  a0 : ℚ
  a1 : ℚ
  a2 : ℚ
  a3 : ℚ
deriving DecidableEq

instance : Inhabited Anchor := ⟨⟨0, 0, 0, 0⟩⟩

/-! ## `generate_proposals` (scrfd.cpp 147-227) -/

/-- Body of `if (prob >= prob_threshold)`: the candidate decoded at flat position `index`
of anchor `q`, with the running `anchor_x`, `anchor_y`. -/
def decode_cell (feat_stride : Int) (bbox_blob kps_blob : Mat) (q index : Nat)
    (anchor_x anchor_y anchor_w anchor_h prob : ℚ) : FaceObject :=
  let dx := bbox_blob.data (q * 4 + 0) index * feat_stride
  let dy := bbox_blob.data (q * 4 + 1) index * feat_stride
  let dw := bbox_blob.data (q * 4 + 2) index * feat_stride
  let dh := bbox_blob.data (q * 4 + 3) index * feat_stride
  let cx := anchor_x + anchor_w * (1 / 2)
  let cy := anchor_y + anchor_h * (1 / 2)
  let x0 := cx - dx
  let y0 := cy - dy
  let x1 := cx + dw
  let y1 := cy + dh
  let rect : Rect := ⟨x0, y0, x1 - x0 + 1, y1 - y0 + 1⟩
  let kp (k : Nat) : ℚ := kps_blob.data (q * 10 + k) index * feat_stride
  let landmark : Landmark5 :=
    if kps_blob.empty then FaceObject.zero.landmark
    else ⟨⟨cx + kp 0, cy + kp 1⟩, ⟨cx + kp 2, cy + kp 3⟩, ⟨cx + kp 4, cy + kp 5⟩,
          ⟨cx + kp 6, cy + kp 7⟩, ⟨cx + kp 8, cy + kp 9⟩⟩
  ⟨rect, landmark, prob⟩

/-- One iteration of `for (int j = 0; j < w; j++)`; the state is `(anchor_x, faceobjects)`. -/
def proposals_col (feat_stride : Int) (score_blob bbox_blob kps_blob : Mat)
    (prob_threshold : ℚ) (q i : Nat) (anchor_y anchor_w anchor_h : ℚ)
    (st : ℚ × List FaceObject) (j : Nat) : ℚ × List FaceObject :=
  let index := i * score_blob.w + j
  let prob := score_blob.data q index
  let faceobjects :=
    if prob ≥ prob_threshold then
      st.2 ++ [decode_cell feat_stride bbox_blob kps_blob q index st.1 anchor_y anchor_w
        anchor_h prob]
    else st.2
  (st.1 + feat_stride, faceobjects)

/-- One iteration of `for (int i = 0; i < h; i++)`; the state is `(anchor_y, faceobjects)`. -/
def proposals_row (feat_stride : Int) (score_blob bbox_blob kps_blob : Mat)
    (prob_threshold : ℚ) (q : Nat) (anchor : Anchor) (anchor_w anchor_h : ℚ)
    (st : ℚ × List FaceObject) (i : Nat) : ℚ × List FaceObject :=
  let anchor_x := anchor.a0
  let inner := (List.range score_blob.w).foldl
    (proposals_col feat_stride score_blob bbox_blob kps_blob prob_threshold q i st.1
      anchor_w anchor_h) (anchor_x, st.2)
  (st.1 + feat_stride, inner.2)

/-- One iteration of `for (int q = 0; q < num_anchors; q++)`. -/
def proposals_anchor (anchors : List Anchor) (feat_stride : Int)
    (score_blob bbox_blob kps_blob : Mat) (prob_threshold : ℚ)
    (faceobjects : List FaceObject) (q : Nat) : List FaceObject :=
  let anchor := anchors.getD q default
  let anchor_y := anchor.a1
  let anchor_w := anchor.a2 - anchor.a0
  let anchor_h := anchor.a3 - anchor.a1
  ((List.range score_blob.h).foldl
    (proposals_row feat_stride score_blob bbox_blob kps_blob prob_threshold q anchor
      anchor_w anchor_h) (anchor_y, faceobjects)).2

/-- The function `generate_proposals`: appends the decoded candidates to `faceobjects`. -/
def generate_proposals (anchors : List Anchor) (feat_stride : Int)
    (score_blob bbox_blob kps_blob : Mat) (prob_threshold : ℚ)
    (faceobjects : List FaceObject) : List FaceObject :=
  let num_anchors := anchors.length
  (List.range num_anchors).foldl
    (proposals_anchor anchors feat_stride score_blob bbox_blob kps_blob prob_threshold)
    faceobjects

/-! ### Closed form of `generate_proposals` -/

/-- The candidate of cell `(q, i, j)` with the running sums replaced by their closed forms
`anchor_x = a0 + j·s`, `anchor_y = a1 + i·s`. -/
def cell_candidate (anchors : List Anchor) (feat_stride : Int)
    (score_blob bbox_blob kps_blob : Mat) (q i j : Nat) : FaceObject :=
  let anchor := anchors.getD q default
  decode_cell feat_stride bbox_blob kps_blob q (i * score_blob.w + j)
    (anchor.a0 + j * feat_stride) (anchor.a1 + i * feat_stride)
    (anchor.a2 - anchor.a0) (anchor.a3 - anchor.a1) (score_blob.data q (i * score_blob.w + j))

/-- The candidates of row `i` of anchor `q`, in column order. -/
def row_candidates (anchors : List Anchor) (feat_stride : Int)
    (score_blob bbox_blob kps_blob : Mat) (prob_threshold : ℚ) (q i : Nat) (n : Nat) :
    List FaceObject :=
  (List.range n).filterMap fun j =>
    if score_blob.data q (i * score_blob.w + j) ≥ prob_threshold then
      some (cell_candidate anchors feat_stride score_blob bbox_blob kps_blob q i j)
    else none

/-- The candidates of the first `n` rows of anchor `q`, in row-major order. -/
def anchor_candidates (anchors : List Anchor) (feat_stride : Int)
    (score_blob bbox_blob kps_blob : Mat) (prob_threshold : ℚ) (q : Nat) (n : Nat) :
    List FaceObject :=
  (List.range n).flatMap fun i =>
    row_candidates anchors feat_stride score_blob bbox_blob kps_blob prob_threshold q i
      score_blob.w

/-- The candidates of the first `n` anchors, anchor-major. -/
def all_candidates (anchors : List Anchor) (feat_stride : Int)
    (score_blob bbox_blob kps_blob : Mat) (prob_threshold : ℚ) (n : Nat) :
    List FaceObject :=
  (List.range n).flatMap fun q =>
    anchor_candidates anchors feat_stride score_blob bbox_blob kps_blob prob_threshold q
      score_blob.h

/-! ## Rounding to binary32 -/

/-- Floor of the binary logarithm of `n ≥ 1`, by repeated halving (`fuel ≥ n` is enough). -/
def ilog2 : Nat → Nat → Nat
  | 0, _ => 0
  | fuel + 1, n => if 2 ≤ n then ilog2 fuel (n / 2) + 1 else 0

/-- Rounding of a non-negative value to the nearest integer, ties to the even one. -/
def round_even (x : ℚ) : Int :=
  let f := ⌊x⌋
  let r := x - f
  if r < 1 / 2 then f else if 1 / 2 < r then f + 1 else if f % 2 = 0 then f else f + 1

/-- The binary exponent `e` of a positive value `a`: `2^e ≤ a < 2^(e+1)`. -/
def binade (a : ℚ) : Int :=
  let e0 : Int := (ilog2 a.num.natAbs a.num.natAbs : Int) - (ilog2 a.den a.den : Int)
  if a < (2 : ℚ) ^ e0 then e0 - 1 else e0

/-- The result of a `float` operation whose exact result is `q`: `q` rounded to IEEE-754
binary32 (24 significant bits, round to nearest, ties to even). Overflow and subnormal
numbers are not represented; the values rounded in this file are far from both. -/
def f32 (q : ℚ) : ℚ :=
  if q = 0 then 0
  else
    let a := |q|
    let ulp : ℚ := (2 : ℚ) ^ (binade a - 23)
    let m : ℚ := (round_even (a / ulp) : ℚ) * ulp
    if 0 < q then m else -m

/-! ## Rectangle intersection and IoU (scrfd.cpp 24-28, OpenCV `Rect_`) -/

/-- The method `cv::Rect_<float>::area()`: the `float` product `width * height`. -/
def Rect.area (r : Rect) : ℚ := f32 (r.width * r.height)

/-- OpenCV `a & b` on `cv::Rect_<float>`: the overlap of the two rectangles, and the
zero rectangle `Rect()` when the overlap has no positive width or no positive height.
This is library code outside the repository, and OpenCV versions differ in the order of
its `float` operations; its coordinates are exact here. -/
def Rect.inter (a b : Rect) : Rect :=
  let x1 := max a.x b.x
  let y1 := max a.y b.y
  let width := min (a.x + a.width) (b.x + b.width) - x1
  let height := min (a.y + a.height) (b.y + b.height) - y1
  if width ≤ 0 ∨ height ≤ 0 then ⟨0, 0, 0, 0⟩ else ⟨x1, y1, width, height⟩

/-- The function `intersection_area`: area of `a.rect & b.rect`. -/
def intersection_area (a b : FaceObject) : ℚ := (a.rect.inter b.rect).area

/-- Outcome of an IEEE-754 division of two finite floats. -/
inductive FloatDiv where
  | nan : FloatDiv
  | pos_inf : FloatDiv
  | neg_inf : FloatDiv
  | fin : ℚ → FloatDiv
deriving DecidableEq

/-- The `float` quotient `x / y` of two `float` values: the exact quotient rounded to
binary32; `0/0` is NaN, a non-zero `x` over zero is an infinity. -/
def fdiv (x y : ℚ) : FloatDiv :=
  if y = 0 then
    if x = 0 then FloatDiv.nan else if 0 < x then FloatDiv.pos_inf else FloatDiv.neg_inf
  else FloatDiv.fin (f32 (x / y))

/-- The float comparison `v > t` for a finite `t`: false on NaN. -/
def FloatDiv.gt (v : FloatDiv) (t : ℚ) : Bool :=
  match v with
  | FloatDiv.nan => false
  | FloatDiv.pos_inf => true
  | FloatDiv.neg_inf => false
  | FloatDiv.fin q => decide (q > t)

/-- The float comparison `v <= t` for a finite `t`: false on NaN. -/
def FloatDiv.le (v : FloatDiv) (t : ℚ) : Bool :=
  match v with
  | FloatDiv.nan => false
  | FloatDiv.pos_inf => false
  | FloatDiv.neg_inf => true
  | FloatDiv.fin q => decide (q ≤ t)

/-- The union area `areas[i] + areas[picked[j]] - inter_area` of two candidates: a
`float` sum followed by a `float` difference. -/
def union_area (a b : FaceObject) : ℚ :=
  f32 (f32 (a.rect.area + b.rect.area) - intersection_area a b)

/-- The quotient `inter_area / union_area` the program computes for two candidates and
compares with `nms_threshold`. -/
def IoU (a b : FaceObject) : FloatDiv :=
  fdiv (intersection_area a b) (union_area a b)

/-! ## `nms_sorted_bboxes` (scrfd.cpp 75-107) -/

/-- The inner loop `for (j = 0; j < picked.size(); j++)` for candidate `i`: the final value
of `keep` (the loop visits `picked[0], picked[1], ...`, here a fold over `picked`). -/
def nms_keep (faceobjects : List FaceObject) (areas : List ℚ) (nms_threshold : ℚ) (i : Nat)
    (picked : List Nat) : Bool :=
  picked.foldl (fun keep pj =>
    let a := faceobjects.getD i default
    let b := faceobjects.getD pj default
    let inter_area := intersection_area a b
    let union_area := f32 (f32 (areas.getD i 0 + areas.getD pj 0) - inter_area)
    if (fdiv inter_area union_area).gt nms_threshold then false else keep) true

/-- One iteration of the outer loop `for (i = 0; i < n; i++)`. -/
def nms_step (faceobjects : List FaceObject) (areas : List ℚ) (nms_threshold : ℚ)
    (picked : List Nat) (i : Nat) : List Nat :=
  if nms_keep faceobjects areas nms_threshold i picked then picked ++ [i] else picked

/-- The function `nms_sorted_bboxes`; the result is the vector `picked`. -/
def nms_sorted_bboxes (faceobjects : List FaceObject) (nms_threshold : ℚ) : List Nat :=
  let n := faceobjects.length
  let areas := faceobjects.map fun o => o.rect.area
  (List.range n).foldl (nms_step faceobjects areas nms_threshold) []

/-! ## `qsort_descent_inplace` (scrfd.cpp 30-73) -/

/-- The read `faceobjects[k]` with an `int` index; `none` outside `[0, size)`, where the
C++ access is out of bounds. -/
def at_index (v : List FaceObject) (k : Int) : Option FaceObject :=
  if 0 ≤ k then v[k.toNat]? else none

/-- The call `std::swap(faceobjects[i], faceobjects[j])`. -/
def swap_at (v : List FaceObject) (i j : Int) : List FaceObject :=
  match at_index v i, at_index v j with
  | some a, some b => (v.set i.toNat b).set j.toNat a
  | _, _ => v

/-- The scan `while (faceobjects[i].prob > p) i++;`: the final `i`. `none` when a read is
out of bounds or the fuel runs out. -/
def scan_up (v : List FaceObject) (p : ℚ) : Nat → Int → Option Int
  | 0, _ => none
  | fuel + 1, i =>
    match at_index v i with
    | none => none
    | some o => if o.prob > p then scan_up v p fuel (i + 1) else some i

/-- The scan `while (faceobjects[j].prob < p) j--;`: the final `j`. -/
def scan_down (v : List FaceObject) (p : ℚ) : Nat → Int → Option Int
  | 0, _ => none
  | fuel + 1, j =>
    match at_index v j with
    | none => none
    | some o => if o.prob < p then scan_down v p fuel (j - 1) else some j

/-- The loop `while (i <= j) { scan; scan; if (i <= j) { swap; i++; j--; } }`: the vector
and the values of `i` and `j` on exit. -/
def partition_loop (p : ℚ) : Nat → List FaceObject → Int → Int →
    Option (List FaceObject × Int × Int)
  | 0, _, _, _ => none
  | fuel + 1, v, i, j =>
    if i ≤ j then
      match scan_up v p fuel i with
      | none => none
      | some i1 =>
        match scan_down v p fuel j with
        | none => none
        | some j1 =>
          if i1 ≤ j1 then partition_loop p fuel (swap_at v i1 j1) (i1 + 1) (j1 - 1)
          else partition_loop p fuel v i1 j1
    else some (v, i, j)

/-- The recursive `qsort_descent_inplace(faceobjects, left, right)`. `(left + right) / 2`
is C integer division. -/
def qsort_descent_inplace_range : Nat → List FaceObject → Int → Int →
    Option (List FaceObject)
  | 0, _, _, _ => none
  | fuel + 1, v, left, right =>
    match at_index v ((left + right).tdiv 2) with
    | none => none
    | some pivot =>
      match partition_loop pivot.prob fuel v left right with
      | none => none
      | some (v1, i, j) =>
        match (if left < j then qsort_descent_inplace_range fuel v1 left j else some v1) with
        | none => none
        | some v2 =>
          if i < right then qsort_descent_inplace_range fuel v2 i right else some v2

/-- The entry point `qsort_descent_inplace(faceobjects)`. -/
def qsort_descent_inplace (fuel : Nat) (faceobjects : List FaceObject) :
    Option (List FaceObject) :=
  if faceobjects.isEmpty then some faceobjects
  else qsort_descent_inplace_range fuel faceobjects 0 ((faceobjects.length : Int) - 1)

/-! ### The sort with a monitor on its reads and recursive calls

The same computation as above; in addition a read at an index outside the range
`left .. right` of the current call, and a recursive call on a sub-range that is not
strictly smaller (`j < right`, `left < i`), make the run fail (`none`). -/

/-- A read `faceobjects[k]` during the call on `left .. right`: `none` when `k` is outside
that range or outside the vector. -/
def at_index_in (v : List FaceObject) (left right k : Int) : Option FaceObject :=
  if left ≤ k ∧ k ≤ right then at_index v k else none

/-- The scan `while (faceobjects[i].prob > p) i++;` with monitored reads. -/
def scan_up_in (v : List FaceObject) (p : ℚ) (left right : Int) : Nat → Int → Option Int
  | 0, _ => none
  | fuel + 1, i =>
    match at_index_in v left right i with
    | none => none
    | some o => if o.prob > p then scan_up_in v p left right fuel (i + 1) else some i

/-- The scan `while (faceobjects[j].prob < p) j--;` with monitored reads. -/
def scan_down_in (v : List FaceObject) (p : ℚ) (left right : Int) : Nat → Int → Option Int
  | 0, _ => none
  | fuel + 1, j =>
    match at_index_in v left right j with
    | none => none
    | some o => if o.prob < p then scan_down_in v p left right fuel (j - 1) else some j

/-- The partition loop with monitored reads. -/
def partition_loop_in (p : ℚ) (left right : Int) : Nat → List FaceObject → Int → Int →
    Option (List FaceObject × Int × Int)
  | 0, _, _, _ => none
  | fuel + 1, v, i, j =>
    if i ≤ j then
      match scan_up_in v p left right fuel i with
      | none => none
      | some i1 =>
        match scan_down_in v p left right fuel j with
        | none => none
        | some j1 =>
          if i1 ≤ j1 then
            partition_loop_in p left right fuel (swap_at v i1 j1) (i1 + 1) (j1 - 1)
          else partition_loop_in p left right fuel v i1 j1
    else some (v, i, j)

/-- The recursive sort with monitored reads and monitored recursive calls. -/
def qsort_range_in : Nat → List FaceObject → Int → Int → Option (List FaceObject)
  | 0, _, _, _ => none
  | fuel + 1, v, left, right =>
    match at_index_in v left right ((left + right).tdiv 2) with
    | none => none
    | some pivot =>
      match partition_loop_in pivot.prob left right fuel v left right with
      | none => none
      | some (v1, i, j) =>
        match (if left < j then
            (if j < right then qsort_range_in fuel v1 left j else none)
          else some v1) with
        | none => none
        | some v2 =>
          if i < right then
            (if left < i then qsort_range_in fuel v2 i right else none)
          else some v2

/-! ## `generate_anchors` (scrfd.cpp 110-145) -/

/-- The C function `round`: to the nearest integer, halves away from zero. -/
def fround (q : ℚ) : Int := if 0 ≤ q then ⌊q + 1 / 2⌋ else ⌈q - 1 / 2⌉

/-- Floor of the square root of `n`, found bit by bit from bit `k - 1` down to bit `0`;
`r` holds the bits found so far. -/
def isqrt_bits : Nat → Nat → Nat → Nat
  | 0, _, r => r
  | k + 1, n, r => isqrt_bits k n (if (r + 2 ^ k) * (r + 2 ^ k) ≤ n then r + 2 ^ k else r)

/-- Floor of the square root of `n`. -/
def isqrt (n : Nat) : Nat := isqrt_bits (ilog2 n n / 2 + 1) n 0

/-- The C function `sqrt` on a `float`: the square root rounded to binary32 (nearest, ties
to even). With `2^e ≤ √q < 2^(e+1)` and `ulp = 2^(e-23)`, the result is `n · ulp` for the
integer `n` nearest to `√q / ulp = √t`, `t = q / ulp²`. `sqrt(0)` is `0`; for a negative
argument the C function returns NaN, which is not represented (the model has `0`). -/
def fsqrt (q : ℚ) : ℚ :=
  if q ≤ 0 then 0
  else
    let e : Int := binade q / 2
    let ulp : ℚ := (2 : ℚ) ^ (e - 23)
    let t : ℚ := q / (ulp * ulp)
    let s : Nat := isqrt ⌊t⌋.toNat
    let half : ℚ := (s : ℚ) * s + s + 1 / 4
    let n : Nat :=
      if t < half then s else if half < t then s + 1 else if s % 2 = 0 then s else s + 1
    (n : ℚ) * ulp

/-- The function `generate_anchors`: row `i * num_scale + j` holds the anchor of ratio `i`
and scale `j`. -/
def generate_anchors (base_size : Int) (ratios scales : List ℚ) : List Anchor :=
  let num_ratio := ratios.length
  let num_scale := scales.length
  let cx : ℚ := 0
  let cy : ℚ := 0
  (List.range num_ratio).foldl (fun anchors i =>
    let ar := ratios.getD i 0
    let r_w : Int := fround (base_size / fsqrt ar)
    let r_h : Int := fround (r_w * ar)
    (List.range num_scale).foldl (fun anchors j =>
      let scale := scales.getD j 0
      let rs_w : ℚ := r_w * scale
      let rs_h : ℚ := r_h * scale
      anchors.set (i * num_scale + j)
        ⟨cx - rs_w * (1 / 2), cy - rs_h * (1 / 2), cx + rs_w * (1 / 2), cy + rs_h * (1 / 2)⟩)
      anchors)
    (List.replicate (num_ratio * num_scale) default)

/-! ## Face alignment: `pre_process`, `post_progress` (scrfd.cpp 294-352) -/

/-- A 2×3 `cv::Mat` of doubles, row-major. -/
structure Affine where
  m00 : ℚ
  m01 : ℚ
  m02 : ℚ
  m10 : ℚ
  m11 : ℚ
  m12 : ℚ
deriving DecidableEq

/-- Conversion of a float to `int`: truncation toward zero. -/
def ftoi (q : ℚ) : Int := if 0 ≤ q then ⌊q⌋ else ⌈q⌉

/-- The matrix `dst_m3.matri` built by `pre_process(src, input_size, det)`. `none` when
`MAX(faceImgWidth, faceImgHeight)` is `0`: the division then yields an infinity and the
matrix has no finite entries. -/
def pre_process (input_size : Int) (det : FaceObject) : Option Affine :=
  let x1 : Int := ftoi det.rect.x
  let y1 : Int := ftoi det.rect.y
  let faceImgWidth : Int := ftoi det.rect.width
  let faceImgHeight : Int := ftoi det.rect.height
  let center_w : ℚ := ((x1 + faceImgWidth.tdiv 2 : Int) : ℚ)
  let center_h : ℚ := ((y1 + faceImgHeight.tdiv 2 : Int) : ℚ)
  if max faceImgWidth faceImgHeight = 0 then none
  else
    let _scale : ℚ := input_size / ((max faceImgWidth faceImgHeight : Int) * (3 / 2))
    some ⟨1 * _scale + 0, 0 * _scale + 0,
          0 * _scale + (-(center_w * _scale) + ((input_size.tdiv 2 : Int) : ℚ)),
          0 * _scale + 0, 1 * _scale + 0,
          0 * _scale + (-(center_h * _scale) + ((input_size.tdiv 2 : Int) : ℚ))⟩

/-- OpenCV `cv::invertAffineTransform` on a 2×3 matrix of doubles. -/
def invertAffineTransform (m : Affine) : Affine :=
  let D := m.m00 * m.m11 - m.m01 * m.m10
  let D := if D ≠ 0 then 1 / D else 0
  let A11 := m.m11 * D
  let A22 := m.m00 * D
  let A12 := -m.m01 * D
  let A21 := -m.m10 * D
  let b1 := -A11 * m.m02 - A12 * m.m12
  let b2 := -A21 * m.m02 - A22 * m.m12
  ⟨A11, A12, b1, A21, A22, b2⟩

/-- The function `post_progress(post_mat, m)`: the 106×2 matrix `coord`, one row per
point. `post_mat` is the 212×1 column of raw landmark outputs. -/
def post_progress (post_mat : List ℚ) (m : Affine) : List Point2f :=
  let pts : List (ℚ × ℚ) :=
    (List.range 106).map fun i => (post_mat.getD (i * 2 + 0) 0, post_mat.getD (i * 2 + 1) 0)
  let im := invertAffineTransform m
  let pts : List (ℚ × ℚ) := pts.map fun r => (r.1 + 1, r.2 + 1)
  let half : ℚ := (((192 : Int).tdiv 2 : Int) : ℚ)
  let pts : List (ℚ × ℚ) := pts.map fun r => (r.1 * half, r.2 * half)
  let new_pts : List (ℚ × ℚ × ℚ) := pts.map fun r => (r.1, r.2, 1)
  new_pts.map fun r =>
    ⟨r.1 * im.m00 + r.2.1 * im.m01 + r.2.2 * im.m02,
     r.1 * im.m10 + r.2.1 * im.m11 + r.2.2 * im.m12⟩

/-! ## `SCRFD::detect` (scrfd.cpp 354-563) -/

/-- The three tensors the detector network yields for one stride. -/
structure StrideBlobs where
  score_blob : Mat
  bbox_blob : Mat
  kps_blob : Mat

/-- The outputs `score_8 .. kps_32` of the detector network for the current image. -/
structure DetectorOut where
  s8 : StrideBlobs
  s16 : StrideBlobs
  s32 : StrideBlobs

/-- Letterbox geometry computed at the top of `detect`. -/
structure Letterbox where
  w : Int
  h : Int
  scale : ℚ
  wpad : Int
  hpad : Int

/-- The resize and padding of `detect` for an image of `width × height` pixels
(`target_size = 120`). `scale = (float)target_size / w` and `h = h * scale` are `float`
operations on the `int` operands converted to `float`, and the product is truncated to
`int`. For an image without pixels (`width = height = 0`) the program divides by zero and
`scale` is infinite; the model then has `scale = 0`, and in both a coordinate divided by
`scale` is `0`. -/
def letterbox (width height : Int) : Letterbox :=
  let target_size : Int := 120
  let w := width
  let h := height
  let r : Int × Int × ℚ :=
    if w > h then
      let scale : ℚ := f32 ((target_size : ℚ) / f32 w)
      (target_size, ftoi (f32 (f32 h * scale)), scale)
    else
      let scale : ℚ := f32 ((target_size : ℚ) / f32 h)
      (ftoi (f32 (f32 w * scale)), target_size, scale)
  let w := r.1
  let h := r.2.1
  let wpad := ((w + 31).tdiv 32) * 32 - w
  let hpad := ((h + 31).tdiv 32) * 32 - h
  ⟨w, h, r.2.2, wpad, hpad⟩

/-- The clamp `std::max(std::min(v, hi), 0.f)`. -/
def clamp0 (v hi : ℚ) : ℚ := max (min v hi) 0

/-- Body of the loop `for (i = 0; i < face_count; i++)` of `detect` for one kept proposal:
letterbox inverse and clamp of the box and, when `has_kps`, of the five landmarks. -/
def remap (width height : Int) (lb : Letterbox) (has_kps : Bool) (p : FaceObject) :
    FaceObject :=
  let scale := lb.scale
  let wp : ℚ := ((lb.wpad.tdiv 2 : Int) : ℚ)
  let hp : ℚ := ((lb.hpad.tdiv 2 : Int) : ℚ)
  let x0 := (p.rect.x - wp) / scale
  let y0 := (p.rect.y - hp) / scale
  let x1 := (p.rect.x + p.rect.width - wp) / scale
  let y1 := (p.rect.y + p.rect.height - hp) / scale
  let x0 := clamp0 x0 ((width : ℚ) - 1)
  let y0 := clamp0 y0 ((height : ℚ) - 1)
  let x1 := clamp0 x1 ((width : ℚ) - 1)
  let y1 := clamp0 y1 ((height : ℚ) - 1)
  let rect : Rect := ⟨x0, y0, x1 - x0, y1 - y0⟩
  let pt (q : Point2f) : Point2f :=
    ⟨clamp0 ((q.x - wp) / scale) ((width : ℚ) - 1),
     clamp0 ((q.y - hp) / scale) ((height : ℚ) - 1)⟩
  let landmark : Landmark5 :=
    if has_kps then
      ⟨pt p.landmark.p0, pt p.landmark.p1, pt p.landmark.p2, pt p.landmark.p3,
       pt p.landmark.p4⟩
    else p.landmark
  ⟨rect, landmark, p.prob⟩

/-- One of the three blocks `// stride 8`, `// stride 16`, `// stride 32` of `detect`. -/
def stride_proposals (base_size feat_stride : Int) (has_kps : Bool) (blobs : StrideBlobs)
    (prob_threshold : ℚ) : List FaceObject :=
  let kps_blob := if has_kps then blobs.kps_blob else Mat.none
  let ratios : List ℚ := [1]
  let scales : List ℚ := [1, 2]
  let anchors := generate_anchors base_size ratios scales
  generate_proposals anchors feat_stride blobs.score_blob blobs.bbox_blob kps_blob
    prob_threshold []

/-- The vector `faceproposals` of `detect` before sorting: strides 8, 16, 32 in turn. -/
def gather_proposals (has_kps : Bool) (net : DetectorOut) (prob_threshold : ℚ) :
    List FaceObject :=
  stride_proposals 16 8 has_kps net.s8 prob_threshold
    ++ stride_proposals 64 16 has_kps net.s16 prob_threshold
    ++ stride_proposals 256 32 has_kps net.s32 prob_threshold

/-- One entry of `facelandmarks`: the 106 points, or `none` for a matrix without finite
entries (when `pre_process` divided by zero). -/
abbrev LandmarkSet := Option (List Point2f)

/-- Body of the landmark loop of `detect` for one face: crop matrix, landmark network
(`fc1`, external), projection back. -/
def face_landmarks (fc1 : FaceObject → List ℚ) (face : FaceObject) : LandmarkSet :=
  match pre_process 192 face with
  | none => none
  | some matri => some (post_progress (fc1 face) matri)

/-- The method `SCRFD::detect`. Inputs: the image size, `has_kps`, the detector outputs for
the image, the landmark network as a function of the face whose crop it receives, the two
thresholds and the contents of the two output vectors on entry. Result: the two output
vectors on return. The sort runs with fuel `2 n + 2`. -/
def detect (width height : Int) (has_kps : Bool) (net : DetectorOut)
    (fc1 : FaceObject → List ℚ) (prob_threshold nms_threshold : ℚ)
    (faceobjects : List FaceObject) (facelandmarks : List LandmarkSet) :
    Option (List FaceObject × List LandmarkSet) :=
  let lb := letterbox width height
  let faceproposals := gather_proposals has_kps net prob_threshold
  match qsort_descent_inplace (2 * faceproposals.length + 2) faceproposals with
  | none => none
  | some faceproposals =>
    let picked := nms_sorted_bboxes faceproposals nms_threshold
    let face_count := picked.length
    -- faceobjects.resize(face_count); every slot is then overwritten
    let faceobjects : List FaceObject :=
      ((faceobjects.take face_count) ++
        List.replicate (face_count - faceobjects.length) FaceObject.zero)
    let faceobjects := (List.range face_count).foldl (fun fo i =>
      fo.set i (remap width height lb has_kps (faceproposals.getD (picked.getD i 0) default)))
      faceobjects
    let facelandmarks :=
      if faceobjects.length > 0 then
        (List.range faceobjects.length).foldl (fun fl i =>
          fl ++ [face_landmarks fc1 (faceobjects.getD i default)]) facelandmarks
      else facelandmarks
    some (faceobjects, facelandmarks)

/-! ## Auxiliary notions used in the statements -/

/-- The vector `picked` of `nms_sorted_bboxes` after the first `k` iterations of its outer
loop. -/
def nms_upto (faceobjects : List FaceObject) (nms_threshold : ℚ) (k : Nat) : List Nat :=
  (List.range k).foldl
    (nms_step faceobjects (faceobjects.map fun o => o.rect.area) nms_threshold) []

/-- IoU as the specification words it, in exact arithmetic:
`inter / (area_a + area_b − inter)` with `area = width × height`, and `0` when the union
area is zero. -/
def IoU_guarded (a b : FaceObject) : ℚ :=
  let inter : ℚ := (a.rect.inter b.rect).width * (a.rect.inter b.rect).height
  let union : ℚ := a.rect.width * a.rect.height + b.rect.width * b.rect.height - inter
  if union = 0 then 0 else inter / union

/-- The faces `detect` stores in `faceobjects`, from the sorted proposals: the picked
proposals, each mapped back to the image. -/
def kept_faces (width height : Int) (has_kps : Bool) (sorted : List FaceObject)
    (nms_threshold : ℚ) : List FaceObject :=
  (nms_sorted_bboxes sorted nms_threshold).map fun k =>
    remap width height (letterbox width height) has_kps (sorted.getD k default)

/-- The crop matrix as the specification words it, for a rect `(x, y, w, h)` and output
size `S`: `[[s, 0, −cx·s + S/2], [0, s, −cy·s + S/2]]` with `cx = x + w/2`, `cy = y + h/2`
and `s = S / (max(w, h) × 1.5)`. -/
def pre_process_reference (S : ℚ) (r : Rect) : Affine :=
  let cx := r.x + r.width / 2
  let cy := r.y + r.height / 2
  let s := S / (max r.width r.height * (3 / 2))
  ⟨s, 0, -cx * s + S / 2, 0, s, -cy * s + S / 2⟩

/-- The image `M·q` of a point under a 2×3 affine matrix. -/
def Affine.apply (m : Affine) (q : Point2f) : Point2f :=
  ⟨m.m00 * q.x + m.m01 * q.y + m.m02, m.m10 * q.x + m.m11 * q.y + m.m12⟩

/-- A detector output with a single 1×1 score map per stride: at stride 16 the first anchor
scores `score`, every other score is `0`, and every bbox offset is `offset`. -/
def one_cell_net (score offset : ℚ) : DetectorOut :=
  let hit : StrideBlobs :=
    ⟨⟨1, 1, 2, fun q _ => if q = 0 then score else 0⟩, ⟨1, 1, 8, fun _ _ => offset⟩, Mat.none⟩
  let miss : StrideBlobs := ⟨⟨1, 1, 2, fun _ _ => 0⟩, ⟨1, 1, 8, fun _ _ => offset⟩, Mat.none⟩
  ⟨miss, hit, miss⟩

/-- The corners of the box and, when `has_kps`, the five landmarks lie in the image:
`x` in `[0, width − 1]`, `y` in `[0, height − 1]`. -/
def InImage (width height : Int) (has_kps : Bool) (o : FaceObject) : Prop :=
  (0 ≤ o.rect.x ∧ o.rect.x ≤ (width : ℚ) - 1) ∧
  (0 ≤ o.rect.x + o.rect.width ∧ o.rect.x + o.rect.width ≤ (width : ℚ) - 1) ∧
  (0 ≤ o.rect.y ∧ o.rect.y ≤ (height : ℚ) - 1) ∧
  (0 ≤ o.rect.y + o.rect.height ∧ o.rect.y + o.rect.height ≤ (height : ℚ) - 1) ∧
  (has_kps = true → ∀ k, k < 5 →
    (0 ≤ (o.landmark.get k).x ∧ (o.landmark.get k).x ≤ (width : ℚ) - 1) ∧
    (0 ≤ (o.landmark.get k).y ∧ (o.landmark.get k).y ≤ (height : ℚ) - 1))

/-- The letterbox inverse `detect` applies to a point `(x, y)` of padded model-input space
(to each box corner and each landmark, scrfd.cpp 481-489 and 498-518): subtract the leading
pad, divide by `scale`, clamp to `[0, dimension − 1]`. -/
def letterbox_inverse (width height : Int) (lb : Letterbox) (q : Point2f) : Point2f :=
  ⟨clamp0 ((q.x - ((lb.wpad.tdiv 2 : Int) : ℚ)) / lb.scale) ((width : ℚ) - 1),
   clamp0 ((q.y - ((lb.hpad.tdiv 2 : Int) : ℚ)) / lb.scale) ((height : ℚ) - 1)⟩

/-- The letterbox forward map of a point of the original image, as the specification words
it: `(x·scale + wpad/2, y·scale + hpad/2)`, with the leading pads `wpad / 2`, `hpad / 2`
that `detect` passes to `copy_make_border`. -/
def letterbox_forward (lb : Letterbox) (q : Point2f) : Point2f :=
  ⟨q.x * lb.scale + ((lb.wpad.tdiv 2 : Int) : ℚ), q.y * lb.scale + ((lb.hpad.tdiv 2 : Int) : ℚ)⟩

/-- All cells `(q, i, j)` of `n` anchors on an `h × w` score map, anchor-major, then
row-major. -/
def all_cells (n h w : Nat) : List (Nat × Nat × Nat) :=
  (List.range n).flatMap fun q =>
    (List.range h).flatMap fun i => (List.range w).map fun j => (q, i, j)

/-- The probability read at index `k` (`0` where the index is out of bounds). -/
def prob_at (v : List FaceObject) (k : Int) : ℚ :=
  match at_index v k with
  | some o => o.prob
  | none => 0

/-- The vector `w` is `v` with the slots `left .. right` rearranged among themselves: same
length, a permutation, equal outside the range, every slot of the range filled from the
range. -/
structure Rearranged (w v : List FaceObject) (left right : Int) : Prop where
  length_eq : w.length = v.length
  perm : w.Perm v
  outside : ∀ k : Int, k < left ∨ right < k → at_index w k = at_index v k
  inside : ∀ k : Int, left ≤ k → k ≤ right →
    ∃ k0 : Int, left ≤ k0 ∧ k0 ≤ right ∧ at_index w k = at_index v k0

/-- Non-increasing probabilities on the slots `left .. right`. -/
def SortedOn (v : List FaceObject) (left right : Int) : Prop :=
  ∀ a b : Int, left ≤ a → a < b → b ≤ right → prob_at v b ≤ prob_at v a

/-! # Verification -/

theorem proposals_col_fold (anchors : List Anchor) (s : Int) (score bbox kps : Mat) (thr : ℚ)
    (q i : Nat) (acc : List FaceObject) (n : Nat) :
    (List.range n).foldl
      (proposals_col s score bbox kps thr q i ((anchors.getD q default).a1 + i * s)
        ((anchors.getD q default).a2 - (anchors.getD q default).a0)
        ((anchors.getD q default).a3 - (anchors.getD q default).a1))
      ((anchors.getD q default).a0, acc)
    = ((anchors.getD q default).a0 + n * s,
        acc ++ row_candidates anchors s score bbox kps thr q i n) := by
  induction n with
  | zero => simp [row_candidates]
  | succ n ih =>
    unfold row_candidates at ih ⊢
    rw [List.range_succ, List.foldl_append, ih, List.filterMap_append]
    simp only [List.foldl_cons, List.foldl_nil, proposals_col]
    refine Prod.ext ?_ ?_
    · simp only [Nat.cast_succ]; ring
    · by_cases hp : score.data q (i * score.w + n) ≥ thr
      · simp [hp, cell_candidate]
      · simp [hp]

theorem proposals_row_fold (anchors : List Anchor) (s : Int) (score bbox kps : Mat) (thr : ℚ)
    (q : Nat) (acc : List FaceObject) (n : Nat) :
    (List.range n).foldl
      (proposals_row s score bbox kps thr q (anchors.getD q default)
        ((anchors.getD q default).a2 - (anchors.getD q default).a0)
        ((anchors.getD q default).a3 - (anchors.getD q default).a1))
      ((anchors.getD q default).a1, acc)
    = ((anchors.getD q default).a1 + n * s,
        acc ++ anchor_candidates anchors s score bbox kps thr q n) := by
  induction n with
  | zero => simp [anchor_candidates]
  | succ n ih =>
    unfold anchor_candidates at ih ⊢
    rw [List.range_succ, List.foldl_append, ih, List.flatMap_append]
    simp only [List.foldl_cons, List.foldl_nil, proposals_row, proposals_col_fold]
    refine Prod.ext ?_ ?_
    · simp only [Nat.cast_succ]; ring
    · simp [List.flatMap]

/-- Closed form: `generate_proposals` appends, anchor-major then row-major, exactly the
candidates of the cells whose score reaches the threshold. -/
theorem generate_proposals_eq (anchors : List Anchor) (s : Int) (score bbox kps : Mat)
    (thr : ℚ) (init : List FaceObject) :
    generate_proposals anchors s score bbox kps thr init
      = init ++ all_candidates anchors s score bbox kps thr anchors.length := by
  unfold generate_proposals
  simp only []
  generalize anchors.length = n
  induction n with
  | zero => simp [all_candidates]
  | succ n ih =>
    unfold all_candidates at ih ⊢
    rw [List.range_succ, List.foldl_append, ih, List.flatMap_append]
    simp only [List.foldl_cons, List.foldl_nil, proposals_anchor, proposals_row_fold]
    simp [List.flatMap]

/-- Membership in the closed form. -/
theorem cell_candidate_mem (anchors : List Anchor) (s : Int) (score bbox kps : Mat)
    (thr : ℚ) (init : List FaceObject) (q i j : Nat) (hq : q < anchors.length)
    (hi : i < score.h) (hj : j < score.w) (hs : score.data q (i * score.w + j) ≥ thr) :
    cell_candidate anchors s score bbox kps q i j
      ∈ generate_proposals anchors s score bbox kps thr init := by
  rw [generate_proposals_eq]
  refine List.mem_append_right _ ?_
  simp only [all_candidates, anchor_candidates, row_candidates, List.mem_flatMap,
    List.mem_filterMap, List.mem_range]
  exact ⟨q, hq, i, hi, j, hj, by simp [hs]⟩

/-! ## C1: decoding of a cell -/

/-- C1. For every anchor row `q`, stride `s` and cell `(i, j)` of the score map whose score
reaches `prob_threshold`, `generate_proposals` emits the reference decode of that cell:
centre `((a0+a2)/2 + j·s, (a1+a3)/2 + i·s)`, `rect.x = cx − s·bbox[4q]`,
`rect.y = cy − s·bbox[4q+1]`, `rect.width = s·(bbox[4q] + bbox[4q+2]) + 1`,
`rect.height = s·(bbox[4q+1] + bbox[4q+3]) + 1`, `prob` the score, and, when the keypoint
tensor is not empty, `landmark[k] = (cx + s·kps[10q+2k], cy + s·kps[10q+2k+1])`. -/
theorem C1_generate_proposals_reference_decode (anchors : List Anchor) (s : Int)
    (score bbox kps : Mat) (thr : ℚ) (init : List FaceObject) (q i j : Nat)
    (hq : q < anchors.length) (hi : i < score.h) (hj : j < score.w)
    (hs : score.data q (i * score.w + j) ≥ thr) :
    ∃ obj ∈ generate_proposals anchors s score bbox kps thr init,
      let a := anchors.getD q default
      let cx : ℚ := (a.a0 + a.a2) / 2 + j * s
      let cy : ℚ := (a.a1 + a.a3) / 2 + i * s
      let b : Nat → ℚ := fun k => bbox.data (4 * q + k) (i * score.w + j)
      let kp : Nat → ℚ := fun k => kps.data (10 * q + k) (i * score.w + j)
      obj.rect.x = cx - s * b 0 ∧ obj.rect.y = cy - s * b 1 ∧
      obj.rect.width = s * (b 0 + b 2) + 1 ∧ obj.rect.height = s * (b 1 + b 3) + 1 ∧
      obj.prob = score.data q (i * score.w + j) ∧
      (kps.empty = false → ∀ k, k < 5 →
        obj.landmark.get k = ⟨cx + s * kp (2 * k), cy + s * kp (2 * k + 1)⟩) := by
  refine ⟨cell_candidate anchors s score bbox kps q i j,
    cell_candidate_mem anchors s score bbox kps thr init q i j hq hi hj hs, ?_⟩
  have e4 : ∀ k, q * 4 + k = 4 * q + k := fun k => by ring
  have e10 : ∀ k, q * 10 + k = 10 * q + k := fun k => by ring
  simp only [cell_candidate, decode_cell, e4, e10]
  refine ⟨by ring, by ring, by ring, by ring, trivial, ?_⟩
  intro hk k hk5
  simp only [hk, Bool.false_eq_true, if_false]
  interval_cases k <;> simp only [Landmark5.get, Point2f.mk.injEq] <;> constructor <;> ring

/-- C1 at a concrete cell: one anchor `(-8, -8, 8, 8)`, stride 16, a 1×1 score map. -/
theorem C1_generate_proposals_reference_decode_witness :
    ∃ obj ∈ generate_proposals [⟨-8, -8, 8, 8⟩] 16 ⟨1, 1, 1, fun _ _ => 1⟩
        ⟨1, 1, 4, fun _ _ => 1⟩ ⟨1, 1, 10, fun _ _ => 1⟩ (1 / 2) [],
      obj.rect.x = (-8 + 8) / 2 + ((0 : Nat) : ℚ) * ((16 : Int) : ℚ) - ((16 : Int) : ℚ) * 1 ∧
      obj.rect.width = ((16 : Int) : ℚ) * (1 + 1) + 1 := by
  obtain ⟨obj, hmem, hx, _, hw, _⟩ :=
    C1_generate_proposals_reference_decode [⟨-8, -8, 8, 8⟩] 16 ⟨1, 1, 1, fun _ _ => 1⟩
      ⟨1, 1, 4, fun _ _ => 1⟩ ⟨1, 1, 10, fun _ _ => 1⟩ (1 / 2) [] 0 0 0
      (by decide) (by decide) (by decide) (by norm_num)
  exact ⟨obj, hmem, hx, hw⟩

/-! ## Binary32 rounding -/

theorem ilog2_spec (fuel : Nat) : ∀ n, 1 ≤ n → n ≤ fuel →
    2 ^ ilog2 fuel n ≤ n ∧ n < 2 ^ (ilog2 fuel n + 1) := by
  induction fuel with
  | zero => intro n h1 h2; omega
  | succ k ih =>
    intro n h1 h2
    unfold ilog2
    by_cases h : 2 ≤ n
    · rw [if_pos h]
      obtain ⟨ha, hb⟩ := ih (n / 2) (by omega) (by omega)
      constructor
      · rw [pow_succ]; omega
      · rw [pow_succ]; omega
    · rw [if_neg h]
      have : n = 1 := by omega
      subst this
      simp

theorem round_even_ge_floor (x : ℚ) : ⌊x⌋ ≤ round_even x := by
  unfold round_even
  simp only []
  split
  · exact le_refl _
  · split
    · omega
    · split
      · exact le_refl _
      · omega

theorem round_even_nonneg (x : ℚ) (hx : 0 ≤ x) : 0 ≤ round_even x :=
  le_trans (Int.floor_nonneg.2 hx) (round_even_ge_floor x)

/-- For a positive `a`, `binade a` is the exponent `e` with `2^e ≤ a < 2^(e+1)`. -/
theorem binade_spec (a : ℚ) (ha : 0 < a) :
    (2 : ℚ) ^ binade a ≤ a ∧ a < (2 : ℚ) ^ (binade a + 1) := by
  have hnum : 0 < a.num := Rat.num_pos.2 ha
  have hN1 : 1 ≤ a.num.natAbs := by omega
  have hD1 : 1 ≤ a.den := a.den_pos
  obtain ⟨hN, hN2⟩ := ilog2_spec a.num.natAbs a.num.natAbs hN1 (le_refl _)
  obtain ⟨hD, hD2⟩ := ilog2_spec a.den a.den hD1 (le_refl _)
  have hNq : ((a.num.natAbs : ℕ) : ℚ) = (a.num : ℚ) := by
    have h : ((a.num.natAbs : ℕ) : ℤ) = a.num := Int.natAbs_of_nonneg (le_of_lt hnum)
    rw [← Int.cast_natCast, h]
  have haq : a = ((a.num.natAbs : ℕ) : ℚ) / ((a.den : ℕ) : ℚ) := by
    rw [hNq]; exact (Rat.num_div_den a).symm
  have hDpos : (0 : ℚ) < ((a.den : ℕ) : ℚ) := by exact_mod_cast hD1
  have hNpos : (0 : ℚ) ≤ ((a.num.natAbs : ℕ) : ℚ) := by positivity
  have h1 : (2 : ℚ) ^ (ilog2 a.num.natAbs a.num.natAbs) ≤ ((a.num.natAbs : ℕ) : ℚ) := by
    exact_mod_cast hN
  have h2 : ((a.num.natAbs : ℕ) : ℚ) < (2 : ℚ) ^ (ilog2 a.num.natAbs a.num.natAbs + 1) := by
    exact_mod_cast hN2
  have h3 : (2 : ℚ) ^ (ilog2 a.den a.den) ≤ ((a.den : ℕ) : ℚ) := by exact_mod_cast hD
  have h4 : ((a.den : ℕ) : ℚ) < (2 : ℚ) ^ (ilog2 a.den a.den + 1) := by exact_mod_cast hD2
  have two_ne : (2 : ℚ) ≠ 0 := by norm_num
  -- 2^(e0 - 1) ≤ a
  have lower : (2 : ℚ) ^ (((ilog2 a.num.natAbs a.num.natAbs : ℕ) : ℤ)
      - ((ilog2 a.den a.den : ℕ) : ℤ) - 1) ≤ a := by
    have e : (((ilog2 a.num.natAbs a.num.natAbs : ℕ) : ℤ) - ((ilog2 a.den a.den : ℕ) : ℤ) - 1)
        = ((ilog2 a.num.natAbs a.num.natAbs : ℕ) : ℤ) - ((ilog2 a.den a.den + 1 : ℕ) : ℤ) := by
      push_cast; ring
    rw [e, zpow_sub₀ two_ne, zpow_natCast, zpow_natCast]
    conv_rhs => rw [haq]
    exact div_le_div₀ hNpos h1 hDpos (le_of_lt h4)
  -- a < 2^(e0 + 1)
  have upper : a < (2 : ℚ) ^ (((ilog2 a.num.natAbs a.num.natAbs : ℕ) : ℤ)
      - ((ilog2 a.den a.den : ℕ) : ℤ) + 1) := by
    have e : (((ilog2 a.num.natAbs a.num.natAbs : ℕ) : ℤ) - ((ilog2 a.den a.den : ℕ) : ℤ) + 1)
        = ((ilog2 a.num.natAbs a.num.natAbs + 1 : ℕ) : ℤ) - ((ilog2 a.den a.den : ℕ) : ℤ) := by
      push_cast; ring
    rw [e, zpow_sub₀ two_ne, zpow_natCast, zpow_natCast]
    conv_lhs => rw [haq]
    have hpos : (0 : ℚ) < (2 : ℚ) ^ (ilog2 a.den a.den) := by positivity
    calc ((a.num.natAbs : ℕ) : ℚ) / ((a.den : ℕ) : ℚ)
        ≤ ((a.num.natAbs : ℕ) : ℚ) / (2 : ℚ) ^ (ilog2 a.den a.den) :=
          div_le_div_of_nonneg_left hNpos hpos h3
      _ < (2 : ℚ) ^ (ilog2 a.num.natAbs a.num.natAbs + 1) / (2 : ℚ) ^ (ilog2 a.den a.den) :=
          div_lt_div_of_pos_right h2 hpos
  unfold binade
  simp only []
  split
  · next hlt =>
    refine ⟨lower, ?_⟩
    rw [sub_add_cancel]; exact hlt
  · next hge =>
    exact ⟨not_lt.1 hge, upper⟩

theorem f32_pos (q : ℚ) (hq : 0 < q) : 0 < f32 q := by
  unfold f32
  rw [if_neg (ne_of_gt hq)]
  simp only [if_pos hq, abs_of_pos hq]
  have hulp : (0 : ℚ) < (2 : ℚ) ^ (binade q - 23) := by positivity
  have hle : (2 : ℚ) ^ (binade q - 23) ≤ q :=
    le_trans (zpow_le_zpow_right₀ (by norm_num) (by omega)) (binade_spec q hq).1
  have h1 : (1 : ℚ) ≤ q / (2 : ℚ) ^ (binade q - 23) := by
    rw [le_div_iff₀ hulp, one_mul]; exact hle
  have h2 : (1 : ℤ) ≤ round_even (q / (2 : ℚ) ^ (binade q - 23)) :=
    le_trans (Int.le_floor.2 (by exact_mod_cast h1)) (round_even_ge_floor _)
  have h3 : (0 : ℚ) < (round_even (q / (2 : ℚ) ^ (binade q - 23)) : ℚ) := by
    exact_mod_cast (by omega : (0 : ℤ) < round_even (q / (2 : ℚ) ^ (binade q - 23)))
  exact mul_pos h3 hulp

theorem f32_nonneg (q : ℚ) (hq : 0 ≤ q) : 0 ≤ f32 q := by
  rcases eq_or_lt_of_le hq with h | h
  · rw [← h]; simp [f32]
  · exact le_of_lt (f32_pos q h)

theorem f32_int_pos (n : Int) (hn : 1 ≤ n) : 0 < f32 (n : ℚ) :=
  f32_pos _ (by exact_mod_cast (by omega : (0 : Int) < n))

theorem f32_zero : f32 0 = 0 := by
  simp [f32]

theorem f32_one : f32 1 = 1 := by
  decide!

theorem binade_unique (a : ℚ) (e : Int) (ha : 0 < a) (h1 : (2 : ℚ) ^ e ≤ a)
    (h2 : a < (2 : ℚ) ^ (e + 1)) : binade a = e := by
  obtain ⟨b1, b2⟩ := binade_spec a ha
  have two : (1 : ℚ) ≤ 2 := by norm_num
  by_contra hne
  rcases lt_or_gt_of_ne hne with h | h
  · have : (2 : ℚ) ^ (binade a + 1) ≤ (2 : ℚ) ^ e := zpow_le_zpow_right₀ two (by omega)
    linarith
  · have : (2 : ℚ) ^ (e + 1) ≤ (2 : ℚ) ^ binade a := zpow_le_zpow_right₀ two (by omega)
    linarith

theorem round_even_intCast (k : Int) : round_even (k : ℚ) = k := by
  simp [round_even]

theorem round_even_le_floor_succ (x : ℚ) : round_even x ≤ ⌊x⌋ + 1 := by
  unfold round_even
  simp only []
  split
  · omega
  · split
    · exact le_refl _
    · split
      · omega
      · exact le_refl _

theorem f32_of_pos (q : ℚ) (hq : 0 < q) :
    f32 q = (round_even (q / (2 : ℚ) ^ (binade q - 23)) : ℚ) * (2 : ℚ) ^ (binade q - 23) := by
  unfold f32
  rw [if_neg (ne_of_gt hq)]
  simp only [if_pos hq, abs_of_pos hq]

/-- The significand of a positive value: `2^23 ≤ q / ulp < 2^24`. -/
theorem significand_bounds (q : ℚ) (hq : 0 < q) :
    (2 : ℚ) ^ (23 : ℕ) ≤ q / (2 : ℚ) ^ (binade q - 23) ∧
      q / (2 : ℚ) ^ (binade q - 23) < (2 : ℚ) ^ (24 : ℕ) := by
  obtain ⟨b1, b2⟩ := binade_spec q hq
  have hu : (0 : ℚ) < (2 : ℚ) ^ (binade q - 23) := by positivity
  have two_ne : (2 : ℚ) ≠ 0 := by norm_num
  constructor
  · rw [le_div_iff₀ hu, ← zpow_natCast, ← zpow_add₀ two_ne]
    have : ((23 : ℕ) : ℤ) + (binade q - 23) = binade q := by push_cast; ring
    rw [this]; exact b1
  · rw [div_lt_iff₀ hu, ← zpow_natCast, ← zpow_add₀ two_ne]
    have : ((24 : ℕ) : ℤ) + (binade q - 23) = binade q + 1 := by push_cast; ring
    rw [this]; exact b2

theorem round_even_significand (q : ℚ) (hq : 0 < q) :
    (2 : Int) ^ 23 ≤ round_even (q / (2 : ℚ) ^ (binade q - 23)) ∧
      round_even (q / (2 : ℚ) ^ (binade q - 23)) ≤ (2 : Int) ^ 24 := by
  obtain ⟨s1, s2⟩ := significand_bounds q hq
  constructor
  · refine le_trans (Int.le_floor.2 ?_) (round_even_ge_floor _)
    push_cast; exact s1
  · refine le_trans (round_even_le_floor_succ _) ?_
    have : ⌊q / (2 : ℚ) ^ (binade q - 23)⌋ < (2 : Int) ^ 24 := by
      rw [Int.floor_lt]; push_cast; exact s2
    omega

/-- A binary32 value is not changed by rounding: `f32` is idempotent on positive values. -/
theorem f32_idem (q : ℚ) (hq : 0 < q) : f32 (f32 q) = f32 q := by
  have hpos := f32_pos q hq
  obtain ⟨n1, n2⟩ := round_even_significand q hq
  have hu : (0 : ℚ) < (2 : ℚ) ^ (binade q - 23) := by positivity
  have two_ne : (2 : ℚ) ≠ 0 := by norm_num
  have hy := f32_of_pos q hq
  generalize hn : round_even (q / (2 : ℚ) ^ (binade q - 23)) = n at hy n1 n2
  have e23 : (2 : ℚ) ^ (23 : ℕ) * (2 : ℚ) ^ (binade q - 23) = (2 : ℚ) ^ binade q := by
    rw [← zpow_natCast, ← zpow_add₀ two_ne]; congr 1; push_cast; ring
  have e24 : (2 : ℚ) ^ (24 : ℕ) * (2 : ℚ) ^ (binade q - 23) = (2 : ℚ) ^ (binade q + 1) := by
    rw [← zpow_natCast, ← zpow_add₀ two_ne]; congr 1; push_cast; ring
  have hlow : (2 : ℚ) ^ binade q ≤ f32 q := by
    rw [hy, ← e23]
    refine mul_le_mul_of_nonneg_right ?_ (le_of_lt hu)
    exact_mod_cast n1
  rcases lt_or_eq_of_le n2 with hlt | heq
  · have hup : f32 q < (2 : ℚ) ^ (binade q + 1) := by
      rw [hy, ← e24]
      refine mul_lt_mul_of_pos_right ?_ hu
      exact_mod_cast hlt
    have hb : binade (f32 q) = binade q := binade_unique _ _ hpos hlow hup
    rw [f32_of_pos (f32 q) hpos, hb]
    conv_lhs => rw [hy]
    rw [mul_div_assoc, div_self (ne_of_gt hu), mul_one, round_even_intCast, ← hy]
  · have hval : f32 q = (2 : ℚ) ^ (binade q + 1) := by
      rw [hy, heq, ← e24]; norm_num
    have hb : binade (f32 q) = binade q + 1 := by
      apply binade_unique _ _ hpos
      · rw [hval]
      · rw [hval]
        exact zpow_lt_zpow_right₀ (by norm_num) (by omega)
    rw [f32_of_pos (f32 q) hpos, hb]
    have hx : f32 q / (2 : ℚ) ^ (binade q + 1 - 23) = (((2 : Int) ^ 23 : Int) : ℚ) := by
      rw [hval, ← zpow_sub₀ two_ne]
      have : binade q + 1 - (binade q + 1 - 23) = ((23 : ℕ) : ℤ) := by push_cast; ring
      rw [this, zpow_natCast]; norm_num
    rw [hx, round_even_intCast]
    have : binade q + 1 - 23 = ((1 : ℕ) : ℤ) + (binade q - 23) := by push_cast; ring
    rw [hval, this, zpow_add₀ two_ne, zpow_natCast, ← e24]
    push_cast; ring

/-- Doubling commutes with rounding to binary32. -/
theorem f32_double (q : ℚ) (hq : 0 < q) : f32 (2 * q) = 2 * f32 q := by
  obtain ⟨b1, b2⟩ := binade_spec q hq
  have two_ne : (2 : ℚ) ≠ 0 := by norm_num
  have h2q : 0 < 2 * q := by linarith
  have hb : binade (2 * q) = binade q + 1 := by
    apply binade_unique _ _ h2q
    · rw [zpow_add₀ two_ne, zpow_one]; linarith
    · rw [zpow_add₀ two_ne, zpow_one]; linarith
  rw [f32_of_pos _ h2q, f32_of_pos _ hq, hb]
  have e : (2 : ℚ) ^ (binade q + 1 - 23) = 2 * (2 : ℚ) ^ (binade q - 23) := by
    have : binade q + 1 - 23 = (binade q - 23) + 1 := by ring
    rw [this, zpow_add₀ two_ne, zpow_one]; ring
  rw [e]
  have hu : (0 : ℚ) < (2 : ℚ) ^ (binade q - 23) := by positivity
  have : 2 * q / (2 * (2 : ℚ) ^ (binade q - 23)) = q / (2 : ℚ) ^ (binade q - 23) := by
    field_simp
    ring
  rw [this]; ring

/-! ## Non-maximum suppression -/

theorem inter_comm (a b : Rect) : a.inter b = b.inter a := by
  simp only [Rect.inter, max_comm a.x b.x, max_comm a.y b.y,
    min_comm (a.x + a.width) (b.x + b.width), min_comm (a.y + a.height) (b.y + b.height)]

theorem intersection_area_comm (a b : FaceObject) :
    intersection_area a b = intersection_area b a := by
  simp only [intersection_area, inter_comm a.rect b.rect]

theorem union_area_comm (a b : FaceObject) : union_area a b = union_area b a := by
  simp only [union_area, intersection_area_comm a b, add_comm a.rect.area b.rect.area]

theorem IoU_comm (a b : FaceObject) : IoU a b = IoU b a := by
  simp only [IoU, intersection_area_comm a b, union_area_comm a b]

theorem IoU_guarded_comm (a b : FaceObject) : IoU_guarded a b = IoU_guarded b a := by
  simp only [IoU_guarded, inter_comm a.rect b.rect,
    add_comm (a.rect.width * a.rect.height) (b.rect.width * b.rect.height)]

theorem areas_getD (fo : List FaceObject) (i : Nat) :
    (fo.map fun o => o.rect.area).getD i 0 = (fo.getD i default).rect.area := by
  by_cases h : i < fo.length
  · rw [List.getD_eq_getElem _ _ (by simpa using h), List.getD_eq_getElem _ _ h]
    simp
  · have h1 : fo.length ≤ i := Nat.le_of_not_lt h
    rw [List.getD_eq_default _ _ (by simpa using h1), List.getD_eq_default _ _ h1]
    simp [default, FaceObject.zero, Rect.area, f32_zero]

theorem foldl_flag (t : Nat → Bool) (l : List Nat) (init : Bool) :
    l.foldl (fun keep pj => if t pj then false else keep) init = true ↔
      (init = true ∧ ∀ pj ∈ l, t pj = false) := by
  induction l generalizing init with
  | nil => simp
  | cons x xs ih =>
    rw [List.foldl_cons, ih]
    cases hx : t x <;> simp [hx]

/-- The flag `keep` ends true exactly when no already-picked box fails the IoU test. -/
theorem nms_keep_iff (fo : List FaceObject) (thr : ℚ) (i : Nat) (picked : List Nat) :
    nms_keep fo (fo.map fun o => o.rect.area) thr i picked = true ↔
      ∀ pj ∈ picked, (IoU (fo.getD i default) (fo.getD pj default)).gt thr = false := by
  have key := foldl_flag
    (fun pj => (IoU (fo.getD i default) (fo.getD pj default)).gt thr) picked true
  simp only [true_and] at key
  rw [← key]
  simp only [nms_keep, areas_getD, IoU, union_area]

theorem nms_upto_succ (fo : List FaceObject) (thr : ℚ) (k : Nat) :
    nms_upto fo thr (k + 1) =
      nms_step fo (fo.map fun o => o.rect.area) thr (nms_upto fo thr k) k := by
  simp [nms_upto, List.range_succ, List.foldl_append]

theorem nms_sorted_bboxes_eq (fo : List FaceObject) (thr : ℚ) :
    nms_sorted_bboxes fo thr = nms_upto fo thr fo.length := rfl

theorem nms_upto_lt (fo : List FaceObject) (thr : ℚ) (k j : Nat)
    (h : j ∈ nms_upto fo thr k) : j < k := by
  induction k with
  | zero => simp [nms_upto] at h
  | succ k ih =>
    rw [nms_upto_succ, nms_step] at h
    split at h
    · rcases List.mem_append.1 h with h1 | h1
      · exact Nat.lt_succ_of_lt (ih h1)
      · simp at h1; omega
    · exact Nat.lt_succ_of_lt (ih h)

theorem nms_upto_mono (fo : List FaceObject) (thr : ℚ) (k m j : Nat) (hkm : k ≤ m)
    (h : j ∈ nms_upto fo thr k) : j ∈ nms_upto fo thr m := by
  induction m with
  | zero =>
    have : k = 0 := by omega
    subst this; exact h
  | succ m ih =>
    rcases Nat.lt_or_ge k (m + 1) with hlt | hge
    · have hm := ih (by omega)
      rw [nms_upto_succ, nms_step]
      split
      · exact List.mem_append_left _ hm
      · exact hm
    · have : k = m + 1 := by omega
      subst this; exact h

theorem nms_upto_restrict (fo : List FaceObject) (thr : ℚ) (k m j : Nat) (hkm : k ≤ m)
    (hj : j < k) (h : j ∈ nms_upto fo thr m) : j ∈ nms_upto fo thr k := by
  induction m with
  | zero =>
    have : k = 0 := by omega
    subst this; exact h
  | succ m ih =>
    rcases Nat.lt_or_ge k (m + 1) with hlt | hge
    · apply ih (by omega)
      rw [nms_upto_succ, nms_step] at h
      split at h
      · rcases List.mem_append.1 h with h1 | h1
        · exact h1
        · simp at h1; omega
      · exact h
    · have : k = m + 1 := by omega
      subst this; exact h

/-- Index `i` survives exactly when `keep` is still set after the inner loop over the
boxes picked before it. -/
theorem nms_mem_iff_keep (fo : List FaceObject) (thr : ℚ) (i : Nat) (hi : i < fo.length) :
    i ∈ nms_sorted_bboxes fo thr ↔
      nms_keep fo (fo.map fun o => o.rect.area) thr i (nms_upto fo thr i) = true := by
  rw [nms_sorted_bboxes_eq]
  constructor
  · intro h
    have h1 := nms_upto_restrict fo thr (i + 1) fo.length i (by omega) (by omega) h
    rw [nms_upto_succ, nms_step] at h1
    split at h1
    · assumption
    · exact absurd (nms_upto_lt fo thr i i h1) (by omega)
  · intro h
    apply nms_upto_mono fo thr (i + 1) fo.length i (by omega)
    rw [nms_upto_succ, nms_step, if_pos h]
    simp

/-- The boxes picked before `i` are the finally picked boxes of smaller index. -/
theorem nms_upto_mem_iff (fo : List FaceObject) (thr : ℚ) (i j : Nat) (hi : i ≤ fo.length) :
    j ∈ nms_upto fo thr i ↔ j < i ∧ j ∈ nms_sorted_bboxes fo thr := by
  rw [nms_sorted_bboxes_eq]
  constructor
  · intro h
    exact ⟨nms_upto_lt fo thr i j h, nms_upto_mono fo thr i fo.length j hi h⟩
  · rintro ⟨h1, h2⟩
    exact nms_upto_restrict fo thr i fo.length j hi h1 h2

/-- Any picked index is a valid index. -/
theorem nms_mem_lt (fo : List FaceObject) (thr : ℚ) (i : Nat)
    (h : i ∈ nms_sorted_bboxes fo thr) : i < fo.length :=
  nms_upto_lt fo thr fo.length i h

/-- A picked box passed the IoU test against every box picked before it. -/
theorem nms_picked_pair (fo : List FaceObject) (thr : ℚ) (a b : Nat)
    (ha : a ∈ nms_sorted_bboxes fo thr) (hb : b ∈ nms_sorted_bboxes fo thr) (hab : a < b) :
    (IoU (fo.getD b default) (fo.getD a default)).gt thr = false := by
  have hbl := nms_mem_lt fo thr b hb
  have hk := (nms_mem_iff_keep fo thr b hbl).1 hb
  rw [nms_keep_iff] at hk
  exact hk a ((nms_upto_mem_iff fo thr b a (by omega)).2 ⟨hab, ha⟩)

theorem at_index_some (v : List FaceObject) (k : Int) (h0 : 0 ≤ k) (h1 : k < v.length) :
    ∃ o, at_index v k = some o := by
  have h : k.toNat < v.length := by omega
  exact ⟨v[k.toNat], by simp [at_index, h0, List.getElem?_eq_getElem h]⟩

theorem prob_at_of_eq (v w : List FaceObject) (k k0 : Int)
    (h : at_index w k = at_index v k0) : prob_at w k = prob_at v k0 := by
  simp only [prob_at, h]

theorem length_swap_at (v : List FaceObject) (i j : Int) :
    (swap_at v i j).length = v.length := by
  unfold swap_at
  split <;> simp

theorem at_index_swap_at (v : List FaceObject) (i j k : Int) (hi0 : 0 ≤ i)
    (hi : i < v.length) (hj0 : 0 ≤ j) (hj : j < v.length) :
    at_index (swap_at v i j) k =
      if k = j then at_index v i else if k = i then at_index v j else at_index v k := by
  obtain ⟨a, ha⟩ := at_index_some v i hi0 hi
  obtain ⟨b, hb⟩ := at_index_some v j hj0 hj
  have hI : i.toNat < v.length := by omega
  have hJ : j.toNat < v.length := by omega
  simp only [swap_at, ha, hb]
  by_cases hk0 : 0 ≤ k
  · by_cases hkj : k = j
    · subst hkj
      simp [at_index, hk0, List.getElem?_set, hJ]
    · by_cases hki : k = i
      · subst hki
        have hne : ¬ j.toNat = k.toNat := by omega
        rw [if_neg hkj, if_pos rfl]
        simp [at_index, hk0, List.getElem?_set, hne, hI]
      · have hne1 : ¬ j.toNat = k.toNat := by omega
        have hne2 : ¬ i.toNat = k.toNat := by omega
        rw [if_neg hkj, if_neg hki]
        simp [at_index, hk0, List.getElem?_set, hne1, hne2]
  · have hkj : ¬ k = j := by omega
    have hki : ¬ k = i := by omega
    simp [at_index, hk0, hkj, hki]

theorem perm_swap_at (v : List FaceObject) (i j : Int) : (swap_at v i j).Perm v := by
  unfold swap_at
  split
  · next a b ha hb =>
    have hi0 : 0 ≤ i := by
      by_contra h; simp [at_index, h] at ha
    have hj0 : 0 ≤ j := by
      by_contra h; simp [at_index, h] at hb
    simp only [at_index, hi0, hj0, if_true] at ha hb
    have hI : i.toNat < v.length := by
      by_contra h
      rw [List.getElem?_eq_none (by omega)] at ha
      exact Option.noConfusion ha
    have hJ : j.toNat < v.length := by
      by_contra h
      rw [List.getElem?_eq_none (by omega)] at hb
      exact Option.noConfusion hb
    rw [List.getElem?_eq_getElem hI] at ha
    rw [List.getElem?_eq_getElem hJ] at hb
    have ha1 : v[i.toNat] = a := Option.some.inj ha
    have hb1 : v[j.toNat] = b := Option.some.inj hb
    rw [List.perm_iff_count]
    intro c
    have hJ2 : j.toNat < (v.set i.toNat b).length := by simpa using hJ
    rw [List.count_set _ _ _ _ hJ2, List.count_set _ _ _ _ hI]
    have hget : (v.set i.toNat b)[j.toNat] = b := by
      rw [List.getElem_set]
      split
      · rfl
      · exact hb1
    rw [hget, ha1]
    have hpos : (if (a == c) = true then 1 else 0) ≤ List.count c v := by
      split
      · next hac =>
        have hac1 : a = c := by simpa using hac
        have hmem : c ∈ v := by
          rw [← hac1, ← ha1]; exact List.getElem_mem _
        exact List.count_pos_iff.2 hmem
      · exact Nat.zero_le _
    omega
  · exact List.Perm.refl _

theorem Rearranged.refl (v : List FaceObject) (l r : Int) : Rearranged v v l r :=
  ⟨rfl, List.Perm.refl _, fun _ _ => rfl, fun k h1 h2 => ⟨k, h1, h2, rfl⟩⟩

theorem Rearranged.trans {u w v : List FaceObject} {l r : Int} (h1 : Rearranged u w l r)
    (h2 : Rearranged w v l r) : Rearranged u v l r := by
  refine ⟨h1.length_eq.trans h2.length_eq, h1.perm.trans h2.perm, ?_, ?_⟩
  · intro k hk
    rw [h1.outside k hk, h2.outside k hk]
  · intro k hk1 hk2
    obtain ⟨k0, ha, hb, hc⟩ := h1.inside k hk1 hk2
    obtain ⟨k1, hd, he, hf⟩ := h2.inside k0 ha hb
    exact ⟨k1, hd, he, hc.trans hf⟩

theorem Rearranged.mono {w v : List FaceObject} {l r l0 r0 : Int} (h : Rearranged w v l0 r0)
    (hl : l ≤ l0) (hr : r0 ≤ r) : Rearranged w v l r := by
  refine ⟨h.length_eq, h.perm, ?_, ?_⟩
  · intro k hk
    exact h.outside k (by omega)
  · intro k hk1 hk2
    by_cases hin : l0 ≤ k ∧ k ≤ r0
    · obtain ⟨k0, ha, hb, hc⟩ := h.inside k hin.1 hin.2
      exact ⟨k0, by omega, by omega, hc⟩
    · exact ⟨k, hk1, hk2, h.outside k (by omega)⟩

theorem Rearranged.swap (v : List FaceObject) (l r i j : Int) (hl : 0 ≤ l)
    (hr : r < v.length) (hi1 : l ≤ i) (hi2 : i ≤ r) (hj1 : l ≤ j) (hj2 : j ≤ r) :
    Rearranged (swap_at v i j) v l r := by
  have hsw := at_index_swap_at v i j
  refine ⟨length_swap_at v i j, perm_swap_at v i j, ?_, ?_⟩
  · intro k hk
    rw [hsw k (by omega) (by omega) (by omega) (by omega), if_neg (by omega),
      if_neg (by omega)]
  · intro k hk1 hk2
    rw [hsw k (by omega) (by omega) (by omega) (by omega)]
    by_cases hkj : k = j
    · exact ⟨i, hi1, hi2, by rw [if_pos hkj]⟩
    · by_cases hki : k = i
      · exact ⟨j, hj1, hj2, by rw [if_neg hkj, if_pos hki]⟩
      · exact ⟨k, hk1, hk2, by rw [if_neg hkj, if_neg hki]⟩

theorem prob_at_some (v : List FaceObject) (k : Int) (o : FaceObject)
    (h : at_index v k = some o) : prob_at v k = o.prob := by
  simp only [prob_at, h]

theorem prob_at_swap_at (v : List FaceObject) (i j k : Int) (hi0 : 0 ≤ i)
    (hi : i < v.length) (hj0 : 0 ≤ j) (hj : j < v.length) :
    prob_at (swap_at v i j) k =
      if k = j then prob_at v i else if k = i then prob_at v j else prob_at v k := by
  have h := at_index_swap_at v i j k hi0 hi hj0 hj
  by_cases hkj : k = j
  · rw [if_pos hkj] at h ⊢; exact prob_at_of_eq _ _ _ _ h
  · by_cases hki : k = i
    · rw [if_neg hkj, if_pos hki] at h ⊢; exact prob_at_of_eq _ _ _ _ h
    · rw [if_neg hkj, if_neg hki] at h ⊢; exact prob_at_of_eq _ _ _ _ h

/-! ## Quicksort: the two scans -/

/-- With a stopper at `k ≥ i` (an in-bounds slot whose probability is not above the pivot)
the upward scan returns, stays in `[i, k]` and skips only slots above the pivot. -/
theorem scan_up_spec (v : List FaceObject) (p : ℚ) (fuel : Nat) :
    ∀ (i k : Int), 0 ≤ i → i ≤ k → k < v.length → prob_at v k ≤ p →
      (k - i).toNat < fuel →
      ∃ i1, scan_up v p fuel i = some i1 ∧ i ≤ i1 ∧ i1 ≤ k ∧ prob_at v i1 ≤ p ∧
        ∀ t, i ≤ t → t < i1 → p < prob_at v t := by
  induction fuel with
  | zero => intro i k _ _ _ _ hf; omega
  | succ n ih =>
    intro i k hi0 hik hk hpk hf
    obtain ⟨o, ho⟩ := at_index_some v i hi0 (by omega)
    have hpo := prob_at_some v i o ho
    unfold scan_up
    rw [ho]
    by_cases hgt : o.prob > p
    · have hne : i ≠ k := by
        rintro rfl
        rw [hpo] at hpk
        exact absurd hgt (not_lt.2 hpk)
      obtain ⟨i1, h1, h2, h3, h4, h5⟩ :=
        ih (i + 1) k (by omega) (by omega) hk hpk (by omega)
      refine ⟨i1, ?_, by omega, h3, h4, ?_⟩
      · simp only [hgt, if_true]; exact h1
      · intro t ht1 ht2
        by_cases hti : t = i
        · rw [hti, hpo]; exact hgt
        · exact h5 t (by omega) ht2
    · refine ⟨i, ?_, le_refl _, hik, ?_, ?_⟩
      · simp only [hgt, if_false]
      · rw [hpo]; exact not_lt.1 hgt
      · intro t ht1 ht2; omega

/-- With a stopper at `k ≤ j` (an in-bounds slot whose probability is not below the pivot)
the downward scan returns, stays in `[k, j]` and skips only slots below the pivot. -/
theorem scan_down_spec (v : List FaceObject) (p : ℚ) (fuel : Nat) :
    ∀ (j k : Int), 0 ≤ k → k ≤ j → j < v.length → p ≤ prob_at v k →
      (j - k).toNat < fuel →
      ∃ j1, scan_down v p fuel j = some j1 ∧ k ≤ j1 ∧ j1 ≤ j ∧ p ≤ prob_at v j1 ∧
        ∀ t, j1 < t → t ≤ j → prob_at v t < p := by
  induction fuel with
  | zero => intro j k _ _ _ _ hf; omega
  | succ n ih =>
    intro j k hk0 hkj hj hpk hf
    obtain ⟨o, ho⟩ := at_index_some v j (by omega) hj
    have hpo := prob_at_some v j o ho
    unfold scan_down
    rw [ho]
    by_cases hlt : o.prob < p
    · have hne : j ≠ k := by
        rintro rfl
        rw [hpo] at hpk
        exact absurd hlt (not_lt.2 hpk)
      obtain ⟨j1, h1, h2, h3, h4, h5⟩ :=
        ih (j - 1) k hk0 (by omega) (by omega) hpk (by omega)
      refine ⟨j1, ?_, h2, by omega, h4, ?_⟩
      · simp only [hlt, if_true]; exact h1
      · intro t ht1 ht2
        by_cases htj : t = j
        · rw [htj, hpo]; exact hlt
        · exact h5 t ht1 (by omega)
    · refine ⟨j, ?_, hkj, le_refl _, ?_, ?_⟩
      · simp only [hlt, if_false]
      · rw [hpo]; exact not_lt.1 hlt
      · intro t ht1 ht2; omega

theorem scan_up_ge (v : List FaceObject) (p : ℚ) (fuel : Nat) :
    ∀ (i i1 : Int), scan_up v p fuel i = some i1 → i ≤ i1 := by
  induction fuel with
  | zero => intro i i1 h; exact Option.noConfusion h
  | succ n ih =>
    intro i i1 h
    unfold scan_up at h
    split at h
    · exact Option.noConfusion h
    · split at h
      · have := ih (i + 1) i1 h
        omega
      · have := Option.some.inj h
        omega

theorem scan_down_le (v : List FaceObject) (p : ℚ) (fuel : Nat) :
    ∀ (j j1 : Int), scan_down v p fuel j = some j1 → j1 ≤ j := by
  induction fuel with
  | zero => intro j j1 h; exact Option.noConfusion h
  | succ n ih =>
    intro j j1 h
    unfold scan_down at h
    split at h
    · exact Option.noConfusion h
    · split at h
      · have := ih (j - 1) j1 h
        omega
      · have := Option.some.inj h
        omega

/-- An upward scan that starts at or right of `left` and stops at or left of `right` reads
only inside `left .. right`. -/
theorem scan_up_in_eq (v : List FaceObject) (p : ℚ) (l r : Int) (fuel : Nat) :
    ∀ (i i1 : Int), scan_up v p fuel i = some i1 → l ≤ i → i1 ≤ r →
      scan_up_in v p l r fuel i = some i1 := by
  induction fuel with
  | zero => intro i i1 h; exact Option.noConfusion h
  | succ n ih =>
    intro i i1 h hl hr
    have hge := scan_up_ge v p (n + 1) i i1 h
    have hin : l ≤ i ∧ i ≤ r := ⟨hl, by omega⟩
    unfold scan_up at h
    unfold scan_up_in
    rw [at_index_in, if_pos hin]
    split at h
    · exact Option.noConfusion h
    · next o ho =>
      split at h
      · next hgt =>
        rw [if_pos hgt]
        exact ih (i + 1) i1 h (by omega) hr
      · next hgt =>
        rw [if_neg hgt]
        exact h

/-- A downward scan that starts at or left of `right` and stops at or right of `left`
reads only inside `left .. right`. -/
theorem scan_down_in_eq (v : List FaceObject) (p : ℚ) (l r : Int) (fuel : Nat) :
    ∀ (j j1 : Int), scan_down v p fuel j = some j1 → j ≤ r → l ≤ j1 →
      scan_down_in v p l r fuel j = some j1 := by
  induction fuel with
  | zero => intro j j1 h; exact Option.noConfusion h
  | succ n ih =>
    intro j j1 h hr hl
    have hle := scan_down_le v p (n + 1) j j1 h
    have hin : l ≤ j ∧ j ≤ r := ⟨by omega, hr⟩
    unfold scan_down at h
    unfold scan_down_in
    rw [at_index_in, if_pos hin]
    split at h
    · exact Option.noConfusion h
    · next o ho =>
      split at h
      · next hlt =>
        rw [if_pos hlt]
        exact ih (j - 1) j1 h (by omega) hl
      · next hlt =>
        rw [if_neg hlt]
        exact h

/-! ## Quicksort: the partition loop -/

/-- The partition loop, started in a state that satisfies its invariant with enough fuel,
returns with `j < i`, every slot left of `i` at least the pivot and every slot right of `j`
at most the pivot; both indices stay within one step of `[left, right]`, and when the
pivot value sits between the initial `i` and `j` both indices move. -/
theorem partition_loop_spec (p : ℚ) (l r : Int) (fuel : Nat) :
    ∀ (v : List FaceObject) (i j : Int),
      0 ≤ l → r < v.length → l ≤ i → j ≤ r → i ≤ r + 1 → l - 1 ≤ j →
      (∀ k, l ≤ k → k < i → p ≤ prob_at v k) →
      (∀ k, j < k → k ≤ r → prob_at v k ≤ p) →
      (i ≤ j → (∃ k, i ≤ k ∧ k ≤ r ∧ prob_at v k ≤ p) ∧
        (∃ k, l ≤ k ∧ k ≤ j ∧ p ≤ prob_at v k)) →
      (j - i + 1).toNat + (r - l + 2).toNat ≤ fuel →
      ∃ v1 i1 j1, partition_loop p fuel v i j = some (v1, i1, j1) ∧ Rearranged v1 v l r ∧
        j1 < i1 ∧ i ≤ i1 ∧ j1 ≤ j ∧ i1 ≤ r + 1 ∧ l - 1 ≤ j1 ∧
        (∀ k, l ≤ k → k < i1 → p ≤ prob_at v1 k) ∧
        (∀ k, j1 < k → k ≤ r → prob_at v1 k ≤ p) ∧
        ((∃ m, i ≤ m ∧ m ≤ j ∧ prob_at v m = p) → i < i1 ∧ j1 < j) ∧
        partition_loop_in p l r fuel v i j = some (v1, i1, j1) := by
  induction fuel with
  | zero => intro v i j _ _ _ _ _ _ _ _ _ hf; omega
  | succ n ih =>
    intro v i j hl hr hli hjr hir hlj hleft hright hsent hf
    unfold partition_loop
    by_cases hij : i ≤ j
    · rw [if_pos hij]
      obtain ⟨⟨ku, hku1, hku2, hku3⟩, ⟨kd, hkd1, hkd2, hkd3⟩⟩ := hsent hij
      obtain ⟨i1, hs1, hi1a, hi1b, hi1c, hi1d⟩ :=
        scan_up_spec v p n i ku (by omega) hku1 (by omega) hku3 (by omega)
      obtain ⟨j1, hs2, hj1a, hj1b, hj1c, hj1d⟩ :=
        scan_down_spec v p n j kd (by omega) hkd2 (by omega) hkd3 (by omega)
      have hs1m := scan_up_in_eq v p l r n i i1 hs1 hli (by omega)
      have hs2m := scan_down_in_eq v p l r n j j1 hs2 hjr (by omega)
      rw [hs1, hs2]
      simp only []
      have hsw := prob_at_swap_at v i1 j1
      by_cases hswap : i1 ≤ j1
      · rw [if_pos hswap]
        have hpsw := fun k => hsw k (by omega) (by omega) (by omega) (by omega)
        obtain ⟨v2, i2, j2, hres, hre, h1, h2, h3, h4, h5, h6, h7, _, hmon⟩ :=
          ih (swap_at v i1 j1) (i1 + 1) (j1 - 1) hl
            (by rw [length_swap_at]; exact hr) (by omega) (by omega) (by omega) (by omega)
            (by
              intro k hk1 hk2
              rw [hpsw k]
              by_cases hkj : k = j1
              · rw [if_pos hkj]
                have : i1 = j1 := by omega
                rw [this]; exact hj1c
              · rw [if_neg hkj]
                by_cases hki : k = i1
                · rw [if_pos hki]; exact hj1c
                · rw [if_neg hki]
                  by_cases hlt : k < i
                  · exact hleft k hk1 hlt
                  · exact le_of_lt (hi1d k (by omega) (by omega)))
            (by
              intro k hk1 hk2
              rw [hpsw k]
              by_cases hkj : k = j1
              · rw [if_pos hkj]; exact hi1c
              · rw [if_neg hkj]
                by_cases hki : k = i1
                · omega
                · rw [if_neg hki]
                  by_cases hgt : j < k
                  · exact hright k hgt hk2
                  · exact le_of_lt (hj1d k (by omega) (by omega)))
            (by
              intro hlt
              refine ⟨⟨j1, by omega, by omega, ?_⟩, ⟨i1, by omega, by omega, ?_⟩⟩
              · rw [hpsw j1, if_pos rfl]; exact hi1c
              · rw [hpsw i1, if_neg (by omega), if_pos rfl]; exact hj1c)
            (by omega)
        refine ⟨v2, i2, j2, hres, ?_, h1, by omega, by omega, h4, h5, h6, h7, ?_, ?_⟩
        · exact hre.trans
            (Rearranged.swap v l r i1 j1 hl hr (by omega) (by omega) (by omega) (by omega))
        · intro _; constructor <;> omega
        · unfold partition_loop_in
          rw [if_pos hij, hs1m, hs2m]
          simp only []
          rw [if_pos hswap]
          exact hmon
      · rw [if_neg hswap]
        obtain ⟨m, rfl⟩ : ∃ m, n = m + 1 := ⟨n - 1, by omega⟩
        unfold partition_loop
        rw [if_neg hswap]
        refine ⟨v, i1, j1, rfl, Rearranged.refl v l r, by omega, hi1a, hj1b, by omega,
          by omega, ?_, ?_, ?_, ?_⟩
        · intro k hk1 hk2
          by_cases hlt : k < i
          · exact hleft k hk1 hlt
          · exact le_of_lt (hi1d k (by omega) hk2)
        · intro k hk1 hk2
          by_cases hgt : j < k
          · exact hright k hgt hk2
          · exact le_of_lt (hj1d k hk1 (by omega))
        · rintro ⟨m0, hm1, hm2, hm3⟩
          exfalso
          have ha : i1 ≤ m0 := by
            by_contra hc
            have := hi1d m0 hm1 (by omega)
            rw [hm3] at this
            exact lt_irrefl _ this
          have hb : m0 ≤ j1 := by
            by_contra hc
            have := hj1d m0 (by omega) hm2
            rw [hm3] at this
            exact lt_irrefl _ this
          omega
        · unfold partition_loop_in
          rw [if_pos hij, hs1m, hs2m]
          simp only []
          rw [if_neg hswap]
          unfold partition_loop_in
          rw [if_neg hswap]
    · rw [if_neg hij]
      refine ⟨v, i, j, rfl, Rearranged.refl v l r, by omega, le_refl _, le_refl _, hir, hlj,
        hleft, hright, ?_, ?_⟩
      · rintro ⟨m0, hm1, hm2, _⟩
        omega
      · unfold partition_loop_in
        rw [if_neg hij]

/-! ## Quicksort: the recursion -/

theorem tdiv_two_mid (l r : Int) (hl : 0 ≤ l) (hlr : l ≤ r) :
    l ≤ (l + r).tdiv 2 ∧ (l + r).tdiv 2 ≤ r := by
  have h : (l + r).tdiv 2 = (l + r) / 2 := by
    rw [Int.tdiv_eq_ediv] <;> omega
  omega

/-- On a valid range and with fuel `2·(right − left + 1) + 2` the recursive sort returns;
the result rearranges the range within itself and is non-increasing on it. -/
theorem qsort_range_spec (fuel : Nat) :
    ∀ (v : List FaceObject) (l r : Int), 0 ≤ l → l ≤ r → r < v.length →
      2 * (r - l + 1).toNat + 2 ≤ fuel →
      ∃ w, qsort_descent_inplace_range fuel v l r = some w ∧ Rearranged w v l r ∧
        SortedOn w l r ∧ qsort_range_in fuel v l r = some w := by
  induction fuel with
  | zero => intro v l r _ _ _ hf; omega
  | succ n ih =>
    intro v l r hl hlr hr hf
    obtain ⟨hm1, hm2⟩ := tdiv_two_mid l r hl hlr
    obtain ⟨pivot, hpiv⟩ := at_index_some v ((l + r).tdiv 2) (by omega) (by omega)
    have hpp := prob_at_some v _ pivot hpiv
    obtain ⟨v1, i1, j1, hres, hre1, hji, _, _, hi1r, hlj1, hleft, hright, hprog, hpmon⟩ :=
      partition_loop_spec pivot.prob l r n v l r hl hr (le_refl _) (le_refl _) (by omega)
        (by omega) (fun k h1 h2 => by omega) (fun k h1 h2 => by omega)
        (fun _ => ⟨⟨_, hm1, hm2, le_of_eq hpp⟩, ⟨_, hm1, hm2, le_of_eq hpp.symm⟩⟩)
        (by omega)
    obtain ⟨hli1, hj1r⟩ := hprog ⟨_, hm1, hm2, hpp⟩
    have hlen1 : v1.length = v.length := hre1.length_eq
    -- first recursive call
    have hfirst : ∃ w2, (if l < j1 then qsort_descent_inplace_range n v1 l j1 else some v1)
        = some w2 ∧ Rearranged w2 v1 l j1 ∧ SortedOn w2 l j1 ∧
        (if l < j1 then (if j1 < r then qsort_range_in n v1 l j1 else none) else some v1)
          = some w2 := by
      by_cases hc : l < j1
      · rw [if_pos hc, if_pos hc, if_pos hj1r]
        exact ih v1 l j1 hl (le_of_lt hc) (by omega) (by omega)
      · rw [if_neg hc, if_neg hc]
        exact ⟨v1, rfl, Rearranged.refl v1 l j1, fun a b h1 h2 h3 => by omega, rfl⟩
    obtain ⟨w2, hw2, hre2, hso2, hw2m⟩ := hfirst
    have hlen2 : w2.length = v1.length := hre2.length_eq
    -- second recursive call
    have hsecond : ∃ w3, (if i1 < r then qsort_descent_inplace_range n w2 i1 r else some w2)
        = some w3 ∧ Rearranged w3 w2 i1 r ∧ SortedOn w3 i1 r ∧
        (if i1 < r then (if l < i1 then qsort_range_in n w2 i1 r else none) else some w2)
          = some w3 := by
      by_cases hc : i1 < r
      · rw [if_pos hc, if_pos hc, if_pos hli1]
        exact ih w2 i1 r (by omega) (le_of_lt hc) (by omega) (by omega)
      · rw [if_neg hc, if_neg hc]
        exact ⟨w2, rfl, Rearranged.refl w2 i1 r, fun a b h1 h2 h3 => by omega, rfl⟩
    obtain ⟨w3, hw3, hre3, hso3, hw3m⟩ := hsecond
    have hpivm : at_index_in v l r ((l + r).tdiv 2) = some pivot := by
      rw [at_index_in, if_pos ⟨hm1, hm2⟩]; exact hpiv
    refine ⟨w3, ?_, ?_, ?_, ?_⟩
    rotate_left 3
    · unfold qsort_range_in
      rw [hpivm]
      simp only []
      rw [hpmon]
      simp only []
      rw [hw2m]
      simp only []
      exact hw3m
    · unfold qsort_descent_inplace_range
      rw [hpiv]
      simp only []
      rw [hres]
      simp only []
      rw [hw2]
      simp only []
      exact hw3
    · exact ((hre3.mono (le_of_lt hli1) (le_refl r)).trans
        (hre2.mono (le_refl l) (le_of_lt hj1r))).trans hre1
    · -- every slot left of `i1` is at least the pivot, every slot right of `j1` at most
      have hF1 : ∀ k, l ≤ k → k < i1 → pivot.prob ≤ prob_at w3 k := by
        intro k hk1 hk2
        rw [prob_at_of_eq _ _ _ _ (hre3.outside k (Or.inl hk2))]
        by_cases hkj : k ≤ j1
        · obtain ⟨k0, ha, hb, hc⟩ := hre2.inside k hk1 hkj
          rw [prob_at_of_eq _ _ _ _ hc]
          exact hleft k0 ha (by omega)
        · rw [prob_at_of_eq _ _ _ _ (hre2.outside k (Or.inr (by omega)))]
          exact hleft k hk1 hk2
      have hF2 : ∀ k, j1 < k → k ≤ r → prob_at w3 k ≤ pivot.prob := by
        intro k hk1 hk2
        by_cases hki : i1 ≤ k
        · obtain ⟨k0, ha, hb, hc⟩ := hre3.inside k hki hk2
          rw [prob_at_of_eq _ _ _ _ hc,
            prob_at_of_eq _ _ _ _ (hre2.outside k0 (Or.inr (by omega)))]
          exact hright k0 (by omega) hb
        · rw [prob_at_of_eq _ _ _ _ (hre3.outside k (Or.inl (by omega))),
            prob_at_of_eq _ _ _ _ (hre2.outside k (Or.inr hk1))]
          exact hright k hk1 hk2
      intro a b ha hab hb
      by_cases hbj : b ≤ j1
      · rw [prob_at_of_eq _ _ _ _ (hre3.outside b (Or.inl (by omega))),
          prob_at_of_eq _ _ _ _ (hre3.outside a (Or.inl (by omega)))]
        exact hso2 a b ha hab hbj
      · by_cases hai : i1 ≤ a
        · exact hso3 a b hai hab hb
        · exact le_trans (hF2 b (by omega) hb) (hF1 a ha (by omega))

theorem prob_at_nat (w : List FaceObject) (a : Nat) (ha : a < w.length) :
    prob_at w (a : Int) = (w.getD a default).prob := by
  simp [prob_at, at_index, List.getD, List.getElem?_eq_getElem ha]

/-- With fuel `2n + 2` for a vector of `n` candidates, `qsort_descent_inplace` returns a
permutation of its input whose probabilities are non-increasing. -/
theorem qsort_descent_inplace_spec (v : List FaceObject) (fuel : Nat)
    (hf : 2 * v.length + 2 ≤ fuel) :
    ∃ w, qsort_descent_inplace fuel v = some w ∧ w.Perm v ∧ w.length = v.length ∧
      ∀ a b : Nat, a < b → b < w.length →
        (w.getD b default).prob ≤ (w.getD a default).prob := by
  unfold qsort_descent_inplace
  by_cases he : v.isEmpty = true
  · rw [if_pos he]
    refine ⟨v, rfl, List.Perm.refl _, rfl, ?_⟩
    intro a b _ hb
    have : v.length = 0 := by simpa using he
    omega
  · rw [if_neg he]
    have hpos : 0 < v.length := by
      rcases Nat.eq_zero_or_pos v.length with h | h
      · exact absurd (by simpa using h) he
      · exact h
    obtain ⟨w, hw, hre, hso, _⟩ :=
      qsort_range_spec fuel v 0 ((v.length : Int) - 1) (le_refl _) (by omega) (by omega)
        (by omega)
    refine ⟨w, hw, hre.perm, hre.length_eq, ?_⟩
    intro a b hab hb
    have hlen := hre.length_eq
    rw [← prob_at_nat w a (by omega), ← prob_at_nat w b hb]
    exact hso a b (by omega) (by omega) (by omega)

/-- C4. For every vector of FaceObjects, `qsort_descent_inplace` (run with enough fuel,
`2n + 2` for `n` elements) returns, and in the result the probabilities are in
non-increasing order: `faceobjects[a].prob ≥ faceobjects[b].prob` for all `a < b`. -/
theorem C4_qsort_descent_sorted (v : List FaceObject) (fuel : Nat)
    (hf : 2 * v.length + 2 ≤ fuel) :
    ∃ w, qsort_descent_inplace fuel v = some w ∧
      ∀ a b : Nat, a < b → b < w.length →
        (w.getD a default).prob ≥ (w.getD b default).prob := by
  obtain ⟨w, hw, _, _, hs⟩ := qsort_descent_inplace_spec v fuel hf
  exact ⟨w, hw, fun a b hab hb => hs a b hab hb⟩

/-- C4 on the three candidates with probabilities `0.3, 0.9, 0.5`. -/
theorem C4_qsort_descent_sorted_witness :
    ∃ w, qsort_descent_inplace 8
        [⟨⟨0, 0, 1, 1⟩, FaceObject.zero.landmark, 3 / 10⟩,
         ⟨⟨0, 0, 1, 1⟩, FaceObject.zero.landmark, 9 / 10⟩,
         ⟨⟨0, 0, 1, 1⟩, FaceObject.zero.landmark, 5 / 10⟩] = some w ∧
      ∀ a b : Nat, a < b → b < w.length →
        (w.getD a default).prob ≥ (w.getD b default).prob :=
  C4_qsort_descent_sorted
    [⟨⟨0, 0, 1, 1⟩, FaceObject.zero.landmark, 3 / 10⟩,
     ⟨⟨0, 0, 1, 1⟩, FaceObject.zero.landmark, 9 / 10⟩,
     ⟨⟨0, 0, 1, 1⟩, FaceObject.zero.landmark, 5 / 10⟩] 8 (by decide)

/-! ## `detect`: closed form of the two output vectors -/

theorem foldl_set_range {α : Type} (f : Nat → α) (init : List α) (k : Nat)
    (hk : k ≤ init.length) :
    (List.range k).foldl (fun fo i => fo.set i (f i)) init
      = (List.range k).map f ++ init.drop k := by
  induction k with
  | zero => simp
  | succ n ih =>
    rw [List.range_succ, List.foldl_append, ih (by omega)]
    simp only [List.foldl_cons, List.foldl_nil, List.map_append, List.map_cons, List.map_nil]
    have hlen : ((List.range n).map f).length = n := by simp
    rw [List.set_append_right _ _ (by omega), hlen, Nat.sub_self]
    have hd : init.drop n = init[n] :: init.drop (n + 1) := by
      rw [List.drop_eq_getElem_cons (by omega)]
    rw [hd, List.set_cons_zero, List.append_assoc]
    rfl

theorem foldl_push_range {β : Type} (g : Nat → β) (init : List β) (k : Nat) :
    (List.range k).foldl (fun fl i => fl ++ [g i]) init = init ++ (List.range k).map g := by
  induction k with
  | zero => simp
  | succ n ih =>
    rw [List.range_succ, List.foldl_append, ih]
    simp

theorem map_range_getD {α β : Type} (l : List α) (d : α) (F : α → β) :
    (List.range l.length).map (fun i => F (l.getD i d)) = l.map F := by
  apply List.ext_getElem
  · simp
  · intro n h1 h2
    simp only [List.length_map, List.length_range] at h1
    simp [List.getD, List.getElem?_eq_getElem h1]

/-- The two vectors `detect` returns: `faceobjects` holds the picked proposals mapped back
to the image, `facelandmarks` holds its content on entry followed by one landmark set per
face. -/
theorem detect_spec (width height : Int) (has_kps : Bool) (net : DetectorOut)
    (fc1 : FaceObject → List ℚ) (pt nt : ℚ) (fo_in : List FaceObject)
    (fl_in : List LandmarkSet) :
    ∃ sorted, qsort_descent_inplace (2 * (gather_proposals has_kps net pt).length + 2)
        (gather_proposals has_kps net pt) = some sorted ∧
      sorted.Perm (gather_proposals has_kps net pt) ∧
      (∀ a b : Nat, a < b → b < sorted.length →
        (sorted.getD b default).prob ≤ (sorted.getD a default).prob) ∧
      detect width height has_kps net fc1 pt nt fo_in fl_in
        = some (kept_faces width height has_kps sorted nt,
            fl_in ++ (kept_faces width height has_kps sorted nt).map (face_landmarks fc1)) := by
  obtain ⟨sorted, hq, hperm, _, hsorted⟩ :=
    qsort_descent_inplace_spec (gather_proposals has_kps net pt) _ (le_refl _)
  refine ⟨sorted, hq, hperm, hsorted, ?_⟩
  unfold detect
  simp only [hq]
  have hfaces : (List.range (nms_sorted_bboxes sorted nt).length).foldl
      (fun fo i => fo.set i (remap width height (letterbox width height) has_kps
        (sorted.getD ((nms_sorted_bboxes sorted nt).getD i 0) default)))
      (fo_in.take (nms_sorted_bboxes sorted nt).length ++
        List.replicate ((nms_sorted_bboxes sorted nt).length - fo_in.length) FaceObject.zero)
      = kept_faces width height has_kps sorted nt := by
    rw [foldl_set_range _ _ _ (by simp; omega)]
    rw [List.drop_eq_nil_of_le (by simp; omega), List.append_nil]
    exact map_range_getD (nms_sorted_bboxes sorted nt) 0
      (fun k => remap width height (letterbox width height) has_kps (sorted.getD k default))
  rw [hfaces]
  congr 1
  refine Prod.ext rfl ?_
  simp only []
  split
  · rw [foldl_push_range (fun i => face_landmarks fc1
      ((kept_faces width height has_kps sorted nt).getD i default))]
    rw [map_range_getD (kept_faces width height has_kps sorted nt) default
      (face_landmarks fc1)]
  · next h =>
    have : kept_faces width height has_kps sorted nt = [] := by
      apply List.eq_nil_of_length_eq_zero; omega
    simp [this]

theorem mem_kept_faces (width height : Int) (has_kps : Bool) (sorted : List FaceObject)
    (nt : ℚ) (o : FaceObject) (ho : o ∈ kept_faces width height has_kps sorted nt) :
    ∃ p ∈ sorted, o = remap width height (letterbox width height) has_kps p := by
  simp only [kept_faces, List.mem_map] at ho
  obtain ⟨k, hk, rfl⟩ := ho
  have hlt := nms_mem_lt sorted nt k hk
  refine ⟨sorted.getD k default, ?_, rfl⟩
  rw [List.getD_eq_getElem _ _ hlt]
  exact List.getElem_mem _

/-! ## C5, C6: the letterbox inverse and clamp -/

theorem clamp0_bounds (v hi : ℚ) (h : 0 ≤ hi) : 0 ≤ clamp0 v hi ∧ clamp0 v hi ≤ hi := by
  unfold clamp0
  exact ⟨le_max_right _ _, max_le (min_le_right _ _) h⟩

theorem clamp0_mono (u v hi : ℚ) (h : u ≤ v) : clamp0 u hi ≤ clamp0 v hi := by
  unfold clamp0
  exact max_le_max (min_le_min h (le_refl _)) (le_refl _)

theorem remap_in_image (width height : Int) (lb : Letterbox) (has_kps : Bool)
    (p : FaceObject) (hw : 1 ≤ width) (hh : 1 ≤ height) :
    InImage width height has_kps (remap width height lb has_kps p) := by
  have hW : (0 : ℚ) ≤ (width : ℚ) - 1 := by
    have : (1 : ℚ) ≤ (width : ℚ) := by exact_mod_cast hw
    linarith
  have hH : (0 : ℚ) ≤ (height : ℚ) - 1 := by
    have : (1 : ℚ) ≤ (height : ℚ) := by exact_mod_cast hh
    linarith
  have cw := fun v => clamp0_bounds v _ hW
  have ch := fun v => clamp0_bounds v _ hH
  unfold InImage remap
  refine ⟨cw _, ?_, ch _, ?_, ?_⟩
  · simp only [add_sub_cancel]; exact cw _
  · simp only [add_sub_cancel]; exact ch _
  · intro hk k hk5
    simp only [hk, if_true]
    interval_cases k <;> exact ⟨cw _, ch _⟩

/-- C5. For every image with `width ≥ 1` and `height ≥ 1`, `detect` returns and every face
it outputs has its box corners in the image (`0 ≤ rect.x ≤ width − 1`,
`0 ≤ rect.x + rect.width ≤ width − 1`, `0 ≤ rect.y ≤ height − 1`,
`0 ≤ rect.y + rect.height ≤ height − 1`) and, when `has_kps`, each of the five landmarks in
`[0, width − 1] × [0, height − 1]`. -/
theorem C5_detect_faces_in_image (width height : Int) (has_kps : Bool) (net : DetectorOut)
    (fc1 : FaceObject → List ℚ) (pt nt : ℚ) (fo_in : List FaceObject)
    (fl_in : List LandmarkSet) (hw : 1 ≤ width) (hh : 1 ≤ height) :
    ∃ out, detect width height has_kps net fc1 pt nt fo_in fl_in = some out ∧
      ∀ o ∈ out.1, InImage width height has_kps o := by
  obtain ⟨sorted, _, _, _, hd⟩ := detect_spec width height has_kps net fc1 pt nt fo_in fl_in
  refine ⟨_, hd, ?_⟩
  intro o ho
  obtain ⟨p, _, rfl⟩ := mem_kept_faces width height has_kps sorted nt o ho
  exact remap_in_image width height _ has_kps p hw hh

/-- C5 on a 120×90 image with one cell scoring 0.95 at stride 16. -/
theorem C5_detect_faces_in_image_witness :
    ∃ out, detect 120 90 false (one_cell_net (95 / 100) 1) (fun _ => []) (1 / 2) (45 / 100)
        [] [] = some out ∧
      ∀ o ∈ out.1, InImage 120 90 false o :=
  C5_detect_faces_in_image 120 90 false (one_cell_net (95 / 100) 1) (fun _ => []) (1 / 2)
    (45 / 100) [] [] (by decide) (by decide)

theorem letterbox_scale_nonneg (width height : Int) (hw : 0 ≤ width) (hh : 0 ≤ height) :
    0 ≤ (letterbox width height).scale := by
  have hW : (0 : ℚ) ≤ f32 (width : ℚ) := f32_nonneg _ (by exact_mod_cast hw)
  have hH : (0 : ℚ) ≤ f32 (height : ℚ) := f32_nonneg _ (by exact_mod_cast hh)
  unfold letterbox
  simp only []
  split
  · exact f32_nonneg _ (div_nonneg (by norm_num) hW)
  · exact f32_nonneg _ (div_nonneg (by norm_num) hH)

theorem letterbox_scale_pos (width height : Int) (hw : 1 ≤ width) (hh : 1 ≤ height) :
    0 < (letterbox width height).scale := by
  have hW : (0 : ℚ) < f32 (width : ℚ) := f32_int_pos width hw
  have hH : (0 : ℚ) < f32 (height : ℚ) := f32_int_pos height hh
  unfold letterbox
  simp only []
  split
  · exact f32_pos _ (div_pos (by norm_num) hW)
  · exact f32_pos _ (div_pos (by norm_num) hH)

theorem remap_size_nonneg (width height : Int) (lb : Letterbox) (has_kps : Bool)
    (p : FaceObject) (hs : 0 ≤ lb.scale) (hpw : 0 ≤ p.rect.width) (hph : 0 ≤ p.rect.height) :
    0 ≤ (remap width height lb has_kps p).rect.width ∧
    0 ≤ (remap width height lb has_kps p).rect.height := by
  unfold remap
  simp only [sub_nonneg]
  constructor
  · apply clamp0_mono
    apply div_le_div_of_nonneg_right _ hs
    linarith
  · apply clamp0_mono
    apply div_le_div_of_nonneg_right _ hs
    linarith

theorem generate_proposals_mem (anchors : List Anchor) (s : Int) (score bbox kps : Mat)
    (thr : ℚ) (init : List FaceObject) (p : FaceObject)
    (hp : p ∈ generate_proposals anchors s score bbox kps thr init) :
    p ∈ init ∨ ∃ q i j, q < anchors.length ∧ i < score.h ∧ j < score.w ∧
      score.data q (i * score.w + j) ≥ thr ∧
      p = cell_candidate anchors s score bbox kps q i j := by
  rw [generate_proposals_eq, List.mem_append] at hp
  rcases hp with hp | hp
  · exact Or.inl hp
  · right
    simp only [all_candidates, anchor_candidates, row_candidates, List.mem_flatMap,
      List.mem_filterMap, List.mem_range] at hp
    obtain ⟨q, hq, i, hi, j, hj, hc⟩ := hp
    by_cases hs : score.data q (i * score.w + j) ≥ thr
    · rw [if_pos hs] at hc
      exact ⟨q, i, j, hq, hi, hj, hs, (Option.some.inj hc).symm⟩
    · rw [if_neg hs] at hc
      exact Option.noConfusion hc

theorem cell_candidate_size (anchors : List Anchor) (s : Int) (score bbox kps : Mat)
    (q i j : Nat) (hs : 0 ≤ s) (hb : ∀ c idx, 0 ≤ bbox.data c idx) :
    0 ≤ (cell_candidate anchors s score bbox kps q i j).rect.width ∧
    0 ≤ (cell_candidate anchors s score bbox kps q i j).rect.height := by
  have hS : (0 : ℚ) ≤ (s : ℚ) := by exact_mod_cast hs
  have h0 := mul_nonneg (hb (q * 4 + 0) (i * score.w + j)) hS
  have h1 := mul_nonneg (hb (q * 4 + 1) (i * score.w + j)) hS
  have h2 := mul_nonneg (hb (q * 4 + 2) (i * score.w + j)) hS
  have h3 := mul_nonneg (hb (q * 4 + 3) (i * score.w + j)) hS
  simp only [cell_candidate, decode_cell]
  constructor <;> linarith

theorem stride_proposals_size (base_size s : Int) (has_kps : Bool) (blobs : StrideBlobs)
    (pt : ℚ) (hs : 0 ≤ s) (hb : ∀ c idx, 0 ≤ blobs.bbox_blob.data c idx) (p : FaceObject)
    (hp : p ∈ stride_proposals base_size s has_kps blobs pt) :
    0 ≤ p.rect.width ∧ 0 ≤ p.rect.height := by
  rcases generate_proposals_mem _ _ _ _ _ _ _ p hp with h | ⟨q, i, j, _, _, _, _, hE⟩
  · exact absurd h (List.not_mem_nil p)
  · rw [hE]
    exact cell_candidate_size _ s _ _ _ q i j hs hb

/-- C6, refuted as stated: a 120×90 image whose detector output has one cell scoring 0.95
at stride 16 with all four bbox offsets `-1`. The decoded box `(16, 16, -31, -31)` is the
only proposal; `detect` outputs the rect `(12, 13, -12, -13)`. -/
theorem C6_counterexample :
    ∃ out, detect 120 90 false (one_cell_net (95 / 100) (-1)) (fun _ => []) (1 / 2)
        (45 / 100) [] [] = some out ∧
      ∃ o ∈ out.1, o.rect.width < 0 ∧ o.rect.height < 0 := by
  have h : (detect 120 90 false (one_cell_net (95 / 100) (-1)) (fun _ => []) (1 / 2)
      (45 / 100) [] []).map (fun out => out.1.map fun o => o.rect)
      = some [⟨12, 13, -12, -13⟩] := by decide!
  cases hd : detect 120 90 false (one_cell_net (95 / 100) (-1)) (fun _ => []) (1 / 2)
      (45 / 100) [] [] with
  | none => rw [hd] at h; exact Option.noConfusion h
  | some out =>
    refine ⟨out, rfl, ?_⟩
    rw [hd] at h
    have h1 : out.1.map (fun o => o.rect) = [⟨12, 13, -12, -13⟩] := Option.some.inj h
    have h2 : (⟨12, 13, -12, -13⟩ : Rect) ∈ out.1.map (fun o => o.rect) := by
      rw [h1]; exact List.mem_singleton.2 rfl
    obtain ⟨o, ho, hor⟩ := List.mem_map.1 h2
    refine ⟨o, ho, ?_⟩
    rw [hor]
    constructor <;> norm_num

/-- C6, amended. For every image size and every detector output whose bbox offsets are
non-negative, `detect` returns and every face it outputs has `rect.width ≥ 0` and
`rect.height ≥ 0`. -/
theorem C6_detect_size_nonneg (width height : Int) (has_kps : Bool) (net : DetectorOut)
    (fc1 : FaceObject → List ℚ) (pt nt : ℚ) (fo_in : List FaceObject)
    (fl_in : List LandmarkSet) (hw : 0 ≤ width) (hh : 0 ≤ height)
    (hb : ∀ blobs ∈ [net.s8, net.s16, net.s32], ∀ c idx, 0 ≤ blobs.bbox_blob.data c idx) :
    ∃ out, detect width height has_kps net fc1 pt nt fo_in fl_in = some out ∧
      ∀ o ∈ out.1, 0 ≤ o.rect.width ∧ 0 ≤ o.rect.height := by
  obtain ⟨sorted, _, hperm, _, hd⟩ :=
    detect_spec width height has_kps net fc1 pt nt fo_in fl_in
  refine ⟨_, hd, ?_⟩
  intro o ho
  obtain ⟨p, hp, rfl⟩ := mem_kept_faces width height has_kps sorted nt o ho
  have hp1 : p ∈ gather_proposals has_kps net pt := hperm.mem_iff.1 hp
  have hsize : 0 ≤ p.rect.width ∧ 0 ≤ p.rect.height := by
    simp only [gather_proposals, List.mem_append] at hp1
    rcases hp1 with (h8 | h16) | h32
    · exact stride_proposals_size 16 8 has_kps net.s8 pt (by decide)
        (hb net.s8 (by simp)) p h8
    · exact stride_proposals_size 64 16 has_kps net.s16 pt (by decide)
        (hb net.s16 (by simp)) p h16
    · exact stride_proposals_size 256 32 has_kps net.s32 pt (by decide)
        (hb net.s32 (by simp)) p h32
  exact remap_size_nonneg width height _ has_kps p
    (letterbox_scale_nonneg width height hw hh) hsize.1 hsize.2

/-- C6 (amended) on a 120×90 image with one cell scoring 0.95 and all bbox offsets `1`. -/
theorem C6_detect_size_nonneg_witness :
    ∃ out, detect 120 90 false (one_cell_net (95 / 100) 1) (fun _ => []) (1 / 2) (45 / 100)
        [] [] = some out ∧
      ∀ o ∈ out.1, 0 ≤ o.rect.width ∧ 0 ≤ o.rect.height :=
  C6_detect_size_nonneg 120 90 false (one_cell_net (95 / 100) 1) (fun _ => []) (1 / 2)
    (45 / 100) [] [] (by decide) (by decide)
    (by
      intro blobs hmem c idx
      simp only [one_cell_net, List.mem_cons, List.mem_singleton, List.not_mem_nil,
        or_false] at hmem
      rcases hmem with rfl | rfl | rfl <;> norm_num)

/-! ## C7: the two output vectors -/

/-- C7 at the failing input: no score reaches the threshold and `facelandmarks` holds one
stale entry on entry. `detect` returns an empty `faceobjects` and the stale entry still in
`facelandmarks`: lengths 0 and 1. -/
theorem C7_detect_keeps_stale_landmarks :
    detect 120 90 false (one_cell_net 0 0) (fun _ => []) (1 / 2) (45 / 100) [] [some []]
      = some ([], [some []]) := by
  decide!

/-! ## Face alignment -/

theorem half_192 : (((192 : Int).tdiv 2 : Int) : ℚ) = 96 := by
  have h : (192 : Int).tdiv 2 = 96 := by decide
  rw [h]; norm_num

/-- The rows of `post_progress` in terms of the inverted matrix. -/
theorem post_progress_eq (r : List ℚ) (m : Affine) :
    post_progress r m = (List.range 106).map fun i =>
      (⟨(r.getD (i * 2 + 0) 0 + 1) * 96 * (invertAffineTransform m).m00
          + (r.getD (i * 2 + 1) 0 + 1) * 96 * (invertAffineTransform m).m01
          + 1 * (invertAffineTransform m).m02,
        (r.getD (i * 2 + 0) 0 + 1) * 96 * (invertAffineTransform m).m10
          + (r.getD (i * 2 + 1) 0 + 1) * 96 * (invertAffineTransform m).m11
          + 1 * (invertAffineTransform m).m12⟩ : Point2f) := by
  simp only [post_progress, List.map_map, half_192]
  rfl

theorem invertAffineTransform_scale (a tx ty : ℚ) (ha : a ≠ 0) :
    invertAffineTransform ⟨a, 0, tx, 0, a, ty⟩ = ⟨1 / a, 0, -tx / a, 0, 1 / a, -ty / a⟩ := by
  have hD : a * a - 0 * 0 ≠ 0 := by
    simp only [mul_zero, sub_zero]; exact mul_ne_zero ha ha
  simp only [invertAffineTransform, if_pos hD, Affine.mk.injEq]
  refine ⟨?_, ?_, ?_, ?_, ?_, ?_⟩ <;> field_simp

theorem post_progress_scale (a tx ty : ℚ) (ha : a ≠ 0) (r : List ℚ) :
    post_progress r ⟨a, 0, tx, 0, a, ty⟩ = (List.range 106).map fun i =>
      (⟨((r.getD (2 * i) 0 + 1) * 96 - tx) / a,
        ((r.getD (2 * i + 1) 0 + 1) * 96 - ty) / a⟩ : Point2f) := by
  rw [post_progress_eq, invertAffineTransform_scale a tx ty ha]
  apply List.map_congr_left
  intro i _
  have e0 : i * 2 + 0 = 2 * i := by ring
  have e1 : i * 2 + 1 = 2 * i + 1 := by ring
  rw [e0, e1]
  simp only [Point2f.mk.injEq]
  constructor <;> field_simp <;> ring

/-- C8, refuted as stated: the face rect `(0, 0, 2.5, 2.5)`. `pre_process` truncates the
size to `2 × 2` and returns the scale `192 / (2 · 1.5) = 64`; the matrix of the claim has
the scale `192 / (2.5 · 1.5) = 51.2`. -/
theorem C8_counterexample :
    pre_process 192 ⟨⟨0, 0, 5 / 2, 5 / 2⟩, FaceObject.zero.landmark, 9 / 10⟩
      ≠ some (pre_process_reference 192 ⟨0, 0, 5 / 2, 5 / 2⟩) := by
  decide!

/-- C8, amended. `pre_process` with `input_size = 192` first truncates the rect to
integers `x1, y1, w, h`. When `max(w, h) ≠ 0` the matrix it returns is
`[[s, 0, −cx·s + 96], [0, s, −cy·s + 96]]` with `cx = x1 + w / 2`, `cy = y1 + h / 2`
(integer halving) and `s = 192 / (max(w, h) × 1.5)`. -/
theorem C8_pre_process_matrix (det : FaceObject)
    (h : max (ftoi det.rect.width) (ftoi det.rect.height) ≠ 0) :
    pre_process 192 det = some
      (let x1 : Int := ftoi det.rect.x
       let y1 : Int := ftoi det.rect.y
       let w : Int := ftoi det.rect.width
       let h : Int := ftoi det.rect.height
       let cx : ℚ := ((x1 + w.tdiv 2 : Int) : ℚ)
       let cy : ℚ := ((y1 + h.tdiv 2 : Int) : ℚ)
       let s : ℚ := 192 / (((max w h : Int) : ℚ) * (3 / 2))
       ⟨s, 0, -cx * s + 96, 0, s, -cy * s + 96⟩) := by
  simp only [pre_process, if_neg h, half_192, Option.some.injEq, Affine.mk.injEq]
  refine ⟨?_, ?_, ?_, ?_, ?_, ?_⟩ <;> push_cast <;> ring_nf

/-- C8 (amended) on the rect `(0, 0, 2.5, 2.5)`. -/
theorem C8_pre_process_matrix_witness :
    pre_process 192 ⟨⟨0, 0, 5 / 2, 5 / 2⟩, FaceObject.zero.landmark, 9 / 10⟩ = some
      (let x1 : Int := ftoi 0
       let y1 : Int := ftoi 0
       let w : Int := ftoi (5 / 2)
       let h : Int := ftoi (5 / 2)
       let cx : ℚ := ((x1 + w.tdiv 2 : Int) : ℚ)
       let cy : ℚ := ((y1 + h.tdiv 2 : Int) : ℚ)
       let s : ℚ := 192 / (((max w h : Int) : ℚ) * (3 / 2))
       ⟨s, 0, -cx * s + 96, 0, s, -cy * s + 96⟩) :=
  C8_pre_process_matrix ⟨⟨0, 0, 5 / 2, 5 / 2⟩, FaceObject.zero.landmark, 9 / 10⟩
    (by decide!)

/-- C9. For every matrix `M = [[a, 0, tx], [0, a, ty]]` with `a ≠ 0` and every raw output
`r`, the inverse affine is `[[1/a, 0, −tx/a], [0, 1/a, −ty/a]]` and `post_progress`
returns the 106 rows `(((r[2i] + 1)·96 − tx)/a, ((r[2i+1] + 1)·96 − ty)/a)`. -/
theorem C9_post_progress_rows (a tx ty : ℚ) (ha : a ≠ 0) (r : List ℚ) :
    invertAffineTransform ⟨a, 0, tx, 0, a, ty⟩ = ⟨1 / a, 0, -tx / a, 0, 1 / a, -ty / a⟩ ∧
    (post_progress r ⟨a, 0, tx, 0, a, ty⟩).length = 106 ∧
    ∀ i, i < 106 →
      (post_progress r ⟨a, 0, tx, 0, a, ty⟩).getD i ⟨0, 0⟩ =
        ⟨((r.getD (2 * i) 0 + 1) * 96 - tx) / a, ((r.getD (2 * i + 1) 0 + 1) * 96 - ty) / a⟩ := by
  refine ⟨invertAffineTransform_scale a tx ty ha, ?_, ?_⟩
  · rw [post_progress_scale a tx ty ha]; simp
  · intro i hi
    rw [post_progress_scale a tx ty ha, List.getD_eq_getElem _ _ (by simpa using hi)]
    simp

/-- C9 on the matrix `[[64, 0, 32], [0, 64, 32]]` and an all-zero raw output. -/
theorem C9_post_progress_rows_witness :
    (post_progress (List.replicate 212 0) ⟨64, 0, 32, 0, 64, 32⟩).length = 106 :=
  (C9_post_progress_rows 64 32 32 (by norm_num) (List.replicate 212 0)).2.1

theorem pre_process_form (det : FaceObject) (M : Affine)
    (hM : pre_process 192 det = some M) :
    ∃ a tx ty : ℚ, a ≠ 0 ∧ M = ⟨a, 0, tx, 0, a, ty⟩ := by
  unfold pre_process at hM
  simp only [] at hM
  split at hM
  · exact Option.noConfusion hM
  · next hne =>
    have hq : ((max (ftoi det.rect.width) (ftoi det.rect.height) : Int) : ℚ) ≠ 0 := by
      exact_mod_cast hne
    have hs : (((192 : Int) : ℚ)) /
        (((max (ftoi det.rect.width) (ftoi det.rect.height) : Int) : ℚ) * (3 / 2)) ≠ 0 := by
      apply div_ne_zero
      · norm_num
      · exact mul_ne_zero hq (by norm_num)
    have hMe := Option.some.inj hM
    refine ⟨_, M.m02, M.m12, hs, ?_⟩
    rw [← hMe]
    simp

/-- C10. Round trip of the face alignment: for every face rect for which `pre_process`
returns a matrix `M`, and every image point `q` whose image `M·q` lies in the 192×192
crop, feeding the normalised crop point `(M·q)/96 − 1` to `post_progress` (as pair `i` of
the raw output) with `M` returns `q`. -/
theorem C10_align_round_trip (det : FaceObject) (M : Affine) (q : Point2f) (r : List ℚ)
    (i : Nat) (hM : pre_process 192 det = some M) (hi : i < 106)
    (_hin : (0 ≤ (M.apply q).x ∧ (M.apply q).x ≤ 192) ∧
      (0 ≤ (M.apply q).y ∧ (M.apply q).y ≤ 192))
    (hx : r.getD (2 * i) 0 = (M.apply q).x / 96 - 1)
    (hy : r.getD (2 * i + 1) 0 = (M.apply q).y / 96 - 1) :
    (post_progress r M).getD i ⟨0, 0⟩ = q := by
  obtain ⟨a, tx, ty, ha, rfl⟩ := pre_process_form det M hM
  rw [post_progress_scale a tx ty ha, List.getD_eq_getElem _ _ (by simpa using hi)]
  simp only [List.getElem_map, List.getElem_range, hx, hy, Affine.apply]
  cases q with
  | mk qx qy =>
    simp only [Point2f.mk.injEq]
    constructor <;> field_simp

/-- C10 on the face rect `(0, 0, 2, 2)`, whose matrix is `[[64, 0, 32], [0, 64, 32]]`, and
the point `(1, 1)`, which maps to the crop centre `(96, 96)`. -/
theorem C10_align_round_trip_witness :
    (post_progress (List.replicate 212 0) ⟨64, 0, 32, 0, 64, 32⟩).getD 0 ⟨0, 0⟩
      = (⟨1, 1⟩ : Point2f) :=
  C10_align_round_trip ⟨⟨0, 0, 2, 2⟩, FaceObject.zero.landmark, 9 / 10⟩
    ⟨64, 0, 32, 0, 64, 32⟩ ⟨1, 1⟩ (List.replicate 212 0) 0 (by decide!) (by decide)
    (by decide!) (by decide!) (by decide!)

/-! ## C11: letterbox round trip -/

/-- The box corners and, with `has_kps`, the landmarks that `remap` returns are the
letterbox inverses of the corners and landmarks of the proposal. -/
theorem remap_letterbox_inverse (width height : Int) (lb : Letterbox) (has_kps : Bool)
    (p : FaceObject) :
    (⟨(remap width height lb has_kps p).rect.x, (remap width height lb has_kps p).rect.y⟩
        : Point2f) = letterbox_inverse width height lb ⟨p.rect.x, p.rect.y⟩ ∧
    (⟨(remap width height lb has_kps p).rect.x + (remap width height lb has_kps p).rect.width,
      (remap width height lb has_kps p).rect.y + (remap width height lb has_kps p).rect.height⟩
        : Point2f) = letterbox_inverse width height lb
          ⟨p.rect.x + p.rect.width, p.rect.y + p.rect.height⟩ ∧
    (has_kps = true → ∀ k, k < 5 →
      (remap width height lb has_kps p).landmark.get k
        = letterbox_inverse width height lb (p.landmark.get k)) := by
  refine ⟨rfl, ?_, ?_⟩
  · simp only [remap, letterbox_inverse, add_sub_cancel]
  · intro hk k hk5
    simp only [remap, hk, if_true, letterbox_inverse]
    interval_cases k <;> rfl

theorem clamp0_id (v hi : ℚ) (h0 : 0 ≤ v) (h1 : v ≤ hi) : clamp0 v hi = v := by
  unfold clamp0
  rw [min_eq_left h1, max_eq_left h0]

/-- C11, refuted as stated: a 120×90 image (`scale = 1`, leading pads 4 and 3) and the point
`(119.5, 45)`, strictly inside the image. Forward gives `(123.5, 48)`; the inverse gives
`119.5`, which the clamp to `[0, 119]` turns into `119`. -/
theorem C11_counterexample :
    (0 < (239 / 2 : ℚ) ∧ (239 / 2 : ℚ) < ((120 : Int) : ℚ)) ∧
    (0 < (45 : ℚ) ∧ (45 : ℚ) < ((90 : Int) : ℚ)) ∧
    letterbox_inverse 120 90 (letterbox 120 90)
      (letterbox_forward (letterbox 120 90) ⟨239 / 2, 45⟩) = ⟨119, 45⟩ ∧
    letterbox_inverse 120 90 (letterbox 120 90)
      (letterbox_forward (letterbox 120 90) ⟨239 / 2, 45⟩) ≠ ⟨239 / 2, 45⟩ := by
  decide!

/-- C11, amended. For every image with `width ≥ 1` and `height ≥ 1` and every point with
`0 ≤ x ≤ width − 1` and `0 ≤ y ≤ height − 1`, the forward map
`(x·scale + wpad/2, y·scale + hpad/2)` followed by the inverse of `detect`
(`(x' − wpad/2)/scale`, `(y' − hpad/2)/scale`, clamp to `[0, dimension − 1]`) returns
`(x, y)`. -/
theorem C11_letterbox_round_trip (width height : Int) (q : Point2f) (hw : 1 ≤ width)
    (hh : 1 ≤ height) (hx0 : 0 ≤ q.x) (hx1 : q.x ≤ (width : ℚ) - 1) (hy0 : 0 ≤ q.y)
    (hy1 : q.y ≤ (height : ℚ) - 1) :
    letterbox_inverse width height (letterbox width height)
      (letterbox_forward (letterbox width height) q) = q := by
  have hs : (letterbox width height).scale ≠ 0 :=
    ne_of_gt (letterbox_scale_pos width height hw hh)
  cases q with
  | mk x y =>
    simp only [letterbox_inverse, letterbox_forward, add_sub_cancel_right,
      mul_div_assoc, div_self hs, mul_one, Point2f.mk.injEq]
    exact ⟨clamp0_id x _ hx0 hx1, clamp0_id y _ hy0 hy1⟩

/-- C11 (amended) on a 120×90 image and the point `(119, 45)`. -/
theorem C11_letterbox_round_trip_witness :
    letterbox_inverse 120 90 (letterbox 120 90)
      (letterbox_forward (letterbox 120 90) ⟨119, 45⟩) = ⟨119, 45⟩ :=
  C11_letterbox_round_trip 120 90 ⟨119, 45⟩ (by decide) (by decide) (by decide!)
    (by decide!) (by decide!) (by decide!)

/-! ## More on non-maximum suppression: order of `picked`, idempotence, special boxes -/

/-- The vector `picked` is strictly increasing. -/
theorem nms_upto_pairwise (fo : List FaceObject) (thr : ℚ) (k : Nat) :
    (nms_upto fo thr k).Pairwise (· < ·) := by
  induction k with
  | zero => simp [nms_upto]
  | succ k ih =>
    rw [nms_upto_succ, nms_step]
    split
    · rw [List.pairwise_append]
      refine ⟨ih, List.pairwise_singleton _ _, ?_⟩
      intro a ha b hb
      rw [List.mem_singleton.1 hb]
      exact nms_upto_lt fo thr k a ha
    · exact ih

theorem nms_pairwise (fo : List FaceObject) (thr : ℚ) :
    (nms_sorted_bboxes fo thr).Pairwise (· < ·) :=
  nms_upto_pairwise fo thr fo.length

/-- Running the suppression on the picked candidates picks every one of them. -/
theorem nms_upto_picked (F : List FaceObject) (thr : ℚ) (k : Nat)
    (hk : k ≤ (nms_sorted_bboxes F thr).length) :
    nms_upto ((nms_sorted_bboxes F thr).map fun p => F.getD p default) thr k
      = List.range k := by
  induction k with
  | zero => simp [nms_upto]
  | succ k ih =>
    rw [nms_upto_succ, ih (by omega), nms_step]
    have hkeep : nms_keep ((nms_sorted_bboxes F thr).map fun p => F.getD p default)
        (((nms_sorted_bboxes F thr).map fun p => F.getD p default).map fun o => o.rect.area)
        thr k (List.range k) = true := by
      rw [nms_keep_iff]
      intro pj hpj
      have hpj1 : pj < k := List.mem_range.1 hpj
      have hkl : k < (nms_sorted_bboxes F thr).length := by omega
      have hjl : pj < (nms_sorted_bboxes F thr).length := by omega
      rw [List.getD_eq_getElem _ _ (by simpa using hkl),
        List.getD_eq_getElem _ _ (by simpa using hjl), List.getElem_map, List.getElem_map]
      exact nms_picked_pair F thr _ _ (List.getElem_mem _) (List.getElem_mem _)
        (List.pairwise_iff_getElem.1 (nms_pairwise F thr) pj k hjl hkl hpj1)
    rw [if_pos hkeep, List.range_succ]

/-- C12. NMS is idempotent: for every candidate list `F` and every threshold, with
`P = nms_sorted_bboxes(F)` and `F'` the list of `F[p]` for `p` in `P` (in order),
`nms_sorted_bboxes(F')` picks every index `0 .. |P| − 1`. -/
theorem C12_nms_idempotent (F : List FaceObject) (thr : ℚ) :
    nms_sorted_bboxes ((nms_sorted_bboxes F thr).map fun p => F.getD p default) thr
      = List.range (nms_sorted_bboxes F thr).length := by
  have h := nms_upto_picked F thr (nms_sorted_bboxes F thr).length (le_refl _)
  rw [nms_sorted_bboxes_eq ((nms_sorted_bboxes F thr).map fun p => F.getD p default),
    List.length_map]
  exact h

/-- The suppression of a two-element list: the second candidate is dropped exactly when
its IoU with the first exceeds the threshold. -/
theorem nms_two (a b : FaceObject) (thr : ℚ) :
    nms_sorted_bboxes [a, b] thr = if (IoU b a).gt thr then [0] else [0, 1] := by
  have h1 : nms_upto [a, b] thr 1 = [0] := by
    rw [nms_upto_succ, nms_step]
    rfl
  rw [nms_sorted_bboxes_eq]
  change nms_upto [a, b] thr (1 + 1) = _
  rw [nms_upto_succ, h1, nms_step]
  have hk := nms_keep_iff [a, b] thr 1 [0]
  simp only [List.mem_singleton, forall_eq] at hk
  have e1 : ([a, b] : List FaceObject).getD 1 default = b := rfl
  have e0 : ([a, b] : List FaceObject).getD 0 default = a := rfl
  rw [e1, e0] at hk
  cases hg : (IoU b a).gt thr
  · rw [if_pos (hk.2 hg)]
    simp
  · have hne : ¬ nms_keep [a, b] (([a, b] : List FaceObject).map fun o => o.rect.area) thr 1
        [0] = true := by
      intro h
      rw [hk.1 h] at hg
      exact Bool.false_ne_true hg
    rw [if_neg hne]
    simp

/-- A rect without positive width or without positive height meets no rect. -/
theorem inter_area_degenerate (a b : Rect) (h : a.width ≤ 0 ∨ a.height ≤ 0) :
    (a.inter b).area = 0 := by
  have hw : min (a.x + a.width) (b.x + b.width) - max a.x b.x ≤ a.width := by
    have h1 := min_le_left (a.x + a.width) (b.x + b.width)
    have h2 := le_max_left a.x b.x
    linarith
  have hh : min (a.y + a.height) (b.y + b.height) - max a.y b.y ≤ a.height := by
    have h1 := min_le_left (a.y + a.height) (b.y + b.height)
    have h2 := le_max_left a.y b.y
    linarith
  have hc : min (a.x + a.width) (b.x + b.width) - max a.x b.x ≤ 0 ∨
      min (a.y + a.height) (b.y + b.height) - max a.y b.y ≤ 0 := by
    rcases h with h | h
    · exact Or.inl (le_trans hw h)
    · exact Or.inr (le_trans hh h)
  simp only [Rect.inter, if_pos hc, Rect.area, mul_zero, f32_zero]

/-- With an empty intersection the quotient is `0`, or `0/0` when the union area is zero
as well. -/
theorem IoU_of_inter_zero (a b : FaceObject) (h : intersection_area a b = 0) :
    IoU a b = if union_area a b = 0 then FloatDiv.nan else FloatDiv.fin 0 := by
  unfold IoU fdiv
  rw [h]
  split
  · simp
  · simp [f32_zero]

theorem IoU_gt_of_inter_zero (a b : FaceObject) (thr : ℚ)
    (h : intersection_area a b = 0) (ht : 0 ≤ thr) : (IoU a b).gt thr = false := by
  rw [IoU_of_inter_zero a b h]
  split
  · rfl
  · simp only [FloatDiv.gt, decide_eq_false_iff_not, not_lt, gt_iff_lt]
    exact ht

/-- C16, refuted as stated. (a) Two candidates with the zero-size rect `(0, 0, 0, 0)` at
`nms_threshold = 0.45`: when candidate 1 is examined, candidate 0 is in `picked`, the union
area of the two is `0` and the quotient the program forms is `0/0`, not `0`. (b) A unit
box followed by a zero-size box at `nms_threshold = -1`: the quotient is `0 > -1` and the
zero-area candidate is suppressed. -/
theorem C16_counterexample :
    (0 ∈ nms_upto [⟨⟨0, 0, 0, 0⟩, FaceObject.zero.landmark, 9 / 10⟩,
                   ⟨⟨0, 0, 0, 0⟩, FaceObject.zero.landmark, 8 / 10⟩] (45 / 100) 1 ∧
     union_area ⟨⟨0, 0, 0, 0⟩, FaceObject.zero.landmark, 8 / 10⟩
                ⟨⟨0, 0, 0, 0⟩, FaceObject.zero.landmark, 9 / 10⟩ = 0 ∧
     IoU ⟨⟨0, 0, 0, 0⟩, FaceObject.zero.landmark, 8 / 10⟩
         ⟨⟨0, 0, 0, 0⟩, FaceObject.zero.landmark, 9 / 10⟩ = FloatDiv.nan) ∧
    nms_sorted_bboxes [⟨⟨0, 0, 1, 1⟩, FaceObject.zero.landmark, 9 / 10⟩,
                       ⟨⟨0, 0, 0, 0⟩, FaceObject.zero.landmark, 8 / 10⟩] (-1) = [0] := by
  decide!

/-- C16, amended. For every candidate list and every `nms_threshold ≥ 0`, a candidate
whose rect has zero area (width `0` or height `0`) is picked (never suppressed) and the
test `IoU > nms_threshold` between it and any candidate is false (it never suppresses).
The program has no guard on the union area: the quotient it forms is `0` when the union
area is not zero and `0/0` when it is. -/
theorem C16_nms_zero_area (F : List FaceObject) (thr : ℚ) (z : Nat) (hz : z < F.length)
    (hd : (F.getD z default).rect.width = 0 ∨ (F.getD z default).rect.height = 0)
    (ht : 0 ≤ thr) :
    z ∈ nms_sorted_bboxes F thr ∧
    (∀ a : FaceObject, (IoU a (F.getD z default)).gt thr = false ∧
      (IoU (F.getD z default) a).gt thr = false) ∧
    (∀ a : FaceObject, IoU (F.getD z default) a =
      if union_area (F.getD z default) a = 0 then FloatDiv.nan else FloatDiv.fin 0) := by
  have hdeg : (F.getD z default).rect.width ≤ 0 ∨ (F.getD z default).rect.height ≤ 0 := by
    rcases hd with h | h
    · exact Or.inl (le_of_eq h)
    · exact Or.inr (le_of_eq h)
  have hint : ∀ a : FaceObject, intersection_area (F.getD z default) a = 0 :=
    fun a => inter_area_degenerate _ a.rect hdeg
  have hgt : ∀ a : FaceObject, (IoU (F.getD z default) a).gt thr = false :=
    fun a => IoU_gt_of_inter_zero _ a thr (hint a) ht
  refine ⟨?_, fun a => ⟨?_, hgt a⟩, fun a => IoU_of_inter_zero _ a (hint a)⟩
  · rw [nms_mem_iff_keep F thr z hz, nms_keep_iff]
    intro pj _
    exact hgt _
  · rw [IoU_comm]; exact hgt a

/-- C16 (amended) on a unit box followed by a zero-size box at threshold `0.45`. -/
theorem C16_nms_zero_area_witness :
    1 ∈ nms_sorted_bboxes [⟨⟨0, 0, 1, 1⟩, FaceObject.zero.landmark, 9 / 10⟩,
                           ⟨⟨0, 0, 0, 0⟩, FaceObject.zero.landmark, 8 / 10⟩] (45 / 100) :=
  (C16_nms_zero_area [⟨⟨0, 0, 1, 1⟩, FaceObject.zero.landmark, 9 / 10⟩,
                      ⟨⟨0, 0, 0, 0⟩, FaceObject.zero.landmark, 8 / 10⟩] (45 / 100) 1
    (by decide) (by decide!) (by decide!)).1

/-- C17, refuted as stated: two candidates with the identical zero-size rect
`(0, 0, 0, 0)`, probabilities 0.9 and 0.8, `nms_threshold = 0.45`: both are picked. -/
theorem C17_counterexample :
    nms_sorted_bboxes [⟨⟨0, 0, 0, 0⟩, FaceObject.zero.landmark, 9 / 10⟩,
                       ⟨⟨0, 0, 0, 0⟩, FaceObject.zero.landmark, 8 / 10⟩] (45 / 100)
      = [0, 1] := by
  decide!

/-- C17, amended. For every two candidates with identical rects of positive width and
height and probabilities 0.9 and 0.8 (in that order), `nms_sorted_bboxes` with
`nms_threshold = 0.45` returns `picked = [0]`. -/
theorem C17_nms_identical (r : Rect) (l0 l1 : Landmark5) (hw : 0 < r.width)
    (hh : 0 < r.height) :
    nms_sorted_bboxes [⟨r, l0, 9 / 10⟩, ⟨r, l1, 8 / 10⟩] (45 / 100) = [0] := by
  rw [nms_two]
  have hinter : r.inter r = r := by
    have hc : ¬ (r.width ≤ 0 ∨ r.height ≤ 0) := by
      simp only [not_or, not_le]
      exact ⟨hw, hh⟩
    simp only [Rect.inter, min_self, max_self, add_sub_cancel_left, if_neg hc]
  have harea : (0 : ℚ) < r.area := f32_pos _ (mul_pos hw hh)
  have hne : r.area ≠ 0 := ne_of_gt harea
  have hid : f32 r.area = r.area := f32_idem _ (mul_pos hw hh)
  have hun : f32 (f32 (r.area + r.area) - r.area) = r.area := by
    have h2 : r.area + r.area = 2 * r.area := by ring
    rw [h2, f32_double _ harea, hid]
    have h3 : 2 * r.area - r.area = r.area := by ring
    rw [h3, hid]
  have hg : (IoU ⟨r, l1, 8 / 10⟩ ⟨r, l0, 9 / 10⟩).gt (45 / 100) = true := by
    simp only [IoU, union_area, intersection_area, hinter, hun, fdiv, if_neg hne,
      div_self hne, f32_one, FloatDiv.gt, decide_eq_true_eq]
    norm_num
  rw [if_pos hg]

/-- C17 (amended) on the unit box. -/
theorem C17_nms_identical_witness :
    nms_sorted_bboxes [⟨⟨0, 0, 1, 1⟩, FaceObject.zero.landmark, 9 / 10⟩,
                       ⟨⟨0, 0, 1, 1⟩, FaceObject.zero.landmark, 8 / 10⟩] (45 / 100) = [0] :=
  C17_nms_identical ⟨0, 0, 1, 1⟩ FaceObject.zero.landmark FaceObject.zero.landmark
    (by decide!) (by decide!)

/-- C18, refuted as stated: the disjoint unit boxes at `(0, 0)` and `(5, 5)` with
`nms_threshold = -1`. Their intersection is empty, the quotient is `0/2 = 0 > -1`, and the
second box is suppressed. -/
theorem C18_counterexample :
    intersection_area ⟨⟨0, 0, 1, 1⟩, FaceObject.zero.landmark, 9 / 10⟩
        ⟨⟨5, 5, 1, 1⟩, FaceObject.zero.landmark, 8 / 10⟩ = 0 ∧
    nms_sorted_bboxes [⟨⟨0, 0, 1, 1⟩, FaceObject.zero.landmark, 9 / 10⟩,
                       ⟨⟨5, 5, 1, 1⟩, FaceObject.zero.landmark, 8 / 10⟩] (-1) = [0] := by
  decide!

/-- C18, amended. For every two candidates whose rects are disjoint (empty intersection)
and every `nms_threshold ≥ 0`, `nms_sorted_bboxes` returns `picked = [0, 1]`. -/
theorem C18_nms_disjoint (a b : FaceObject) (thr : ℚ) (hd : intersection_area a b = 0)
    (ht : 0 ≤ thr) :
    nms_sorted_bboxes [a, b] thr = [0, 1] := by
  rw [nms_two, IoU_comm, IoU_gt_of_inter_zero a b thr hd ht]
  rfl

/-- C18 (amended) on the unit boxes at `(0, 0)` and `(5, 5)` with threshold `0.45`. -/
theorem C18_nms_disjoint_witness :
    nms_sorted_bboxes [⟨⟨0, 0, 1, 1⟩, FaceObject.zero.landmark, 9 / 10⟩,
                       ⟨⟨5, 5, 1, 1⟩, FaceObject.zero.landmark, 8 / 10⟩] (45 / 100)
      = [0, 1] :=
  C18_nms_disjoint ⟨⟨0, 0, 1, 1⟩, FaceObject.zero.landmark, 9 / 10⟩
    ⟨⟨5, 5, 1, 1⟩, FaceObject.zero.landmark, 8 / 10⟩ (45 / 100) (by decide!) (by decide!)

/-! ## C13: which candidates `generate_proposals` appends -/

theorem mem_all_cells (n h w : Nat) (c : Nat × Nat × Nat) :
    c ∈ all_cells n h w ↔ c.1 < n ∧ c.2.1 < h ∧ c.2.2 < w := by
  obtain ⟨q, i, j⟩ := c
  simp only [all_cells, List.mem_flatMap, List.mem_map, List.mem_range, Prod.mk.injEq]
  constructor
  · rintro ⟨q0, hq, i0, hi, j0, hj, rfl, rfl, rfl⟩
    exact ⟨hq, hi, hj⟩
  · rintro ⟨hq, hi, hj⟩
    exact ⟨q, hq, i, hi, j, hj, rfl, rfl, rfl⟩

theorem nodup_all_cells (n h w : Nat) : (all_cells n h w).Nodup := by
  unfold all_cells
  rw [List.nodup_flatMap]
  constructor
  · intro q _
    rw [List.nodup_flatMap]
    constructor
    · intro i _
      exact (List.nodup_range w).map (fun a b hab => by simpa using hab)
    · refine (List.nodup_range h).imp ?_
      intro a b hab
      simp only [Function.onFun, List.disjoint_left, List.mem_map, List.mem_range]
      rintro c ⟨j, _, rfl⟩ ⟨j0, _, hc⟩
      simp only [Prod.mk.injEq] at hc
      exact hab hc.2.1.symm
  · refine (List.nodup_range n).imp ?_
    intro a b hab
    simp only [Function.onFun, List.disjoint_left, List.mem_flatMap, List.mem_map,
      List.mem_range]
    rintro c ⟨i, _, j, _, rfl⟩ ⟨i0, _, j0, _, hc⟩
    simp only [Prod.mk.injEq] at hc
    exact hab hc.1.symm

theorem filter_map_filterMap {γ : Type} (l : List Nat) (f : Nat → Nat × Nat × Nat)
    (p : Nat × Nat × Nat → Prop) [DecidablePred p] (g : Nat × Nat × Nat → γ) :
    ((l.map f).filter fun c => decide (p c)).map g
      = l.filterMap fun j => if p (f j) then some (g (f j)) else none := by
  induction l with
  | nil => rfl
  | cons x xs ih =>
    by_cases hp : p (f x)
    · simp [List.filterMap_cons, hp, ih]
    · simp [List.filterMap_cons, hp, ih]

/-- The candidates appended are those of the cells that reach the threshold, in the order
of `all_cells`. -/
theorem all_candidates_eq (anchors : List Anchor) (s : Int) (score bbox kps : Mat)
    (thr : ℚ) :
    all_candidates anchors s score bbox kps thr anchors.length
      = ((all_cells anchors.length score.h score.w).filter fun c =>
          decide (score.data c.1 (c.2.1 * score.w + c.2.2) ≥ thr)).map
        fun c => cell_candidate anchors s score bbox kps c.1 c.2.1 c.2.2 := by
  simp only [all_cells, List.filter_flatMap, List.map_flatMap, all_candidates,
    anchor_candidates, row_candidates]
  congr 1
  funext q
  congr 1
  funext i
  exact (filter_map_filterMap (List.range score.w) (fun j => (q, i, j))
    (fun c => score.data c.1 (c.2.1 * score.w + c.2.2) ≥ thr)
    (fun c => cell_candidate anchors s score bbox kps c.1 c.2.1 c.2.2)).symm

/-- C13. `generate_proposals` leaves the candidates already in the output vector in place
and appends, in anchor-major then row-major order, the candidate of each cell `(q, i, j)`
with `score[q][i,j] ≥ prob_threshold` and nothing else; every cell occurs once in that
order; when no score reaches the threshold nothing is appended. -/
theorem C13_generate_proposals_appends (anchors : List Anchor) (s : Int)
    (score bbox kps : Mat) (thr : ℚ) (init : List FaceObject) :
    generate_proposals anchors s score bbox kps thr init
      = init ++ ((all_cells anchors.length score.h score.w).filter fun c =>
          decide (score.data c.1 (c.2.1 * score.w + c.2.2) ≥ thr)).map
        (fun c => cell_candidate anchors s score bbox kps c.1 c.2.1 c.2.2) ∧
    (all_cells anchors.length score.h score.w).Nodup ∧
    (∀ c, c ∈ all_cells anchors.length score.h score.w ↔
      c.1 < anchors.length ∧ c.2.1 < score.h ∧ c.2.2 < score.w) ∧
    ((∀ q i j, q < anchors.length → i < score.h → j < score.w →
        score.data q (i * score.w + j) < thr) →
      generate_proposals anchors s score bbox kps thr init = init) := by
  have main := generate_proposals_eq anchors s score bbox kps thr init
  rw [all_candidates_eq] at main
  refine ⟨main, nodup_all_cells _ _ _, mem_all_cells _ _ _, ?_⟩
  intro hno
  rw [main]
  have hnil : ((all_cells anchors.length score.h score.w).filter fun c =>
      decide (score.data c.1 (c.2.1 * score.w + c.2.2) ≥ thr)) = [] := by
    rw [List.filter_eq_nil_iff]
    intro c hc
    obtain ⟨h1, h2, h3⟩ := (mem_all_cells _ _ _ c).1 hc
    simp only [decide_eq_true_eq, ge_iff_le, not_le]
    exact hno c.1 c.2.1 c.2.2 h1 h2 h3
  rw [hnil]
  simp

/-! ## C14: the anchors of `detect` -/

theorem fround_intCast (b : Int) : fround (b : ℚ) = b := by
  unfold fround
  split
  · rw [Int.floor_eq_iff]
    constructor <;> norm_num
  · rw [Int.ceil_eq_iff]
    constructor <;> norm_num

theorem isqrt_bits_spec (k : Nat) : ∀ n r : Nat, r * r ≤ n →
    n < (r + 2 ^ k) * (r + 2 ^ k) →
    isqrt_bits k n r * isqrt_bits k n r ≤ n ∧
      n < (isqrt_bits k n r + 1) * (isqrt_bits k n r + 1) := by
  induction k with
  | zero =>
    intro n r h1 h2
    simpa [isqrt_bits] using And.intro h1 h2
  | succ k ih =>
    intro n r h1 h2
    unfold isqrt_bits
    split
    · next hc =>
      apply ih n (r + 2 ^ k) hc
      have e : r + 2 ^ k + 2 ^ k = r + 2 ^ (k + 1) := by rw [pow_succ]; omega
      rw [e]; exact h2
    · next hc =>
      exact ih n r h1 (Nat.lt_of_not_le hc)

/-- The function `isqrt` returns the floor of the square root. -/
theorem isqrt_spec (n : Nat) : isqrt n * isqrt n ≤ n ∧ n < (isqrt n + 1) * (isqrt n + 1) := by
  unfold isqrt
  apply isqrt_bits_spec _ n 0 (by omega)
  rw [Nat.zero_add, ← pow_add]
  rcases Nat.eq_zero_or_pos n with h | h
  · subst h; positivity
  · have h1 := (ilog2_spec n n h (le_refl _)).2
    refine lt_of_lt_of_le h1 (Nat.pow_le_pow_right (by norm_num) ?_)
    omega

theorem fsqrt_one : fsqrt 1 = 1 := by
  decide!

/-- The value `fsqrt q` is a multiple `n · ulp` of `ulp = 2^(e - 23)`, `e = ⌊binade q / 2⌋`,
whose square brackets `q` to half an `ulp`: `(n − 1/2)·ulp ≤ √q ≤ (n + 1/2)·ulp`. -/
theorem fsqrt_spec (q : ℚ) (hq : 0 < q) :
    ∃ n : Nat, fsqrt q = (n : ℚ) * (2 : ℚ) ^ (binade q / 2 - 23) ∧
      (((n : ℚ) - 1 / 2) * (2 : ℚ) ^ (binade q / 2 - 23)) ^ 2 ≤ q ∧
      q ≤ (((n : ℚ) + 1 / 2) * (2 : ℚ) ^ (binade q / 2 - 23)) ^ 2 := by
  have hu : (0 : ℚ) < (2 : ℚ) ^ (binade q / 2 - 23) := by positivity
  have huu : (2 : ℚ) ^ (binade q / 2 - 23) * (2 : ℚ) ^ (binade q / 2 - 23) ≤ q := by
    rw [← zpow_add₀ (by norm_num : (2 : ℚ) ≠ 0)]
    refine le_trans (zpow_le_zpow_right₀ (by norm_num) ?_) (binade_spec q hq).1
    omega
  have huupos : (0 : ℚ) <
      (2 : ℚ) ^ (binade q / 2 - 23) * (2 : ℚ) ^ (binade q / 2 - 23) := mul_pos hu hu
  have ht1 : (1 : ℚ) ≤
      q / ((2 : ℚ) ^ (binade q / 2 - 23) * (2 : ℚ) ^ (binade q / 2 - 23)) := by
    rw [le_div_iff₀ huupos, one_mul]; exact huu
  generalize hT : q / ((2 : ℚ) ^ (binade q / 2 - 23) * (2 : ℚ) ^ (binade q / 2 - 23)) = t
    at ht1
  have hqt : q = t * ((2 : ℚ) ^ (binade q / 2 - 23)) ^ 2 := by
    rw [← hT, pow_two]; field_simp
  have hfl0 : (0 : Int) ≤ ⌊t⌋ := Int.floor_nonneg.2 (by linarith)
  have hN : ((⌊t⌋.toNat : Nat) : ℚ) = ((⌊t⌋ : Int) : ℚ) := by
    have : ((⌊t⌋.toNat : Nat) : Int) = ⌊t⌋ := Int.toNat_of_nonneg hfl0
    rw [← Int.cast_natCast, this]
  have hNle : ((⌊t⌋.toNat : Nat) : ℚ) ≤ t := by rw [hN]; exact Int.floor_le t
  have hNlt : t < ((⌊t⌋.toNat : Nat) : ℚ) + 1 := by rw [hN]; exact Int.lt_floor_add_one t
  obtain ⟨hs1, hs2⟩ := isqrt_spec ⌊t⌋.toNat
  generalize hS : isqrt ⌊t⌋.toNat = s at hs1 hs2
  have hs1q : (s : ℚ) * s ≤ t := by
    have : ((s * s : Nat) : ℚ) ≤ ((⌊t⌋.toNat : Nat) : ℚ) := by exact_mod_cast hs1
    push_cast at this; linarith
  have hs2q : t < ((s : ℚ) + 1) * ((s : ℚ) + 1) := by
    have : ((⌊t⌋.toNat + 1 : Nat) : ℚ) ≤ (((s + 1) * (s + 1) : Nat) : ℚ) := by
      exact_mod_cast hs2
    push_cast at this; linarith
  have hs0 : (1 : ℚ) ≤ (s : ℚ) := by
    have : 1 ≤ s := by
      rcases Nat.eq_zero_or_pos s with h | h
      · subst h; norm_num at hs2q; linarith
      · exact h
    exact_mod_cast this
  have key : ∀ n : Nat, ((n : ℚ) - 1 / 2) ^ 2 ≤ t → t ≤ ((n : ℚ) + 1 / 2) ^ 2 →
      fsqrt q = (n : ℚ) * (2 : ℚ) ^ (binade q / 2 - 23) →
      ∃ n : Nat, fsqrt q = (n : ℚ) * (2 : ℚ) ^ (binade q / 2 - 23) ∧
        (((n : ℚ) - 1 / 2) * (2 : ℚ) ^ (binade q / 2 - 23)) ^ 2 ≤ q ∧
        q ≤ (((n : ℚ) + 1 / 2) * (2 : ℚ) ^ (binade q / 2 - 23)) ^ 2 := by
    intro n h1 h2 h3
    refine ⟨n, h3, ?_, ?_⟩
    · rw [mul_pow]
      conv_rhs => rw [hqt]
      exact mul_le_mul_of_nonneg_right h1 (by positivity)
    · rw [mul_pow]
      conv_lhs => rw [hqt]
      exact mul_le_mul_of_nonneg_right h2 (by positivity)
  have hf : fsqrt q = ((if t < (s : ℚ) * s + s + 1 / 4 then s
      else if (s : ℚ) * s + s + 1 / 4 < t then s + 1
      else if s % 2 = 0 then s else s + 1 : Nat) : ℚ) * (2 : ℚ) ^ (binade q / 2 - 23) := by
    unfold fsqrt
    rw [if_neg (not_le.2 hq)]
    simp only []
    rw [hT, hS]
  have e1 : ((s : ℚ) - 1 / 2) ^ 2 = (s : ℚ) * s - s + 1 / 4 := by ring
  have e2 : ((s : ℚ) + 1 / 2) ^ 2 = (s : ℚ) * s + s + 1 / 4 := by ring
  have e3 : (((s + 1 : Nat) : ℚ) - 1 / 2) ^ 2 = (s : ℚ) * s + s + 1 / 4 := by
    push_cast; ring
  have e4 : (((s + 1 : Nat) : ℚ) + 1 / 2) ^ 2
      = ((s : ℚ) + 1) * ((s : ℚ) + 1) + (s : ℚ) + 5 / 4 := by
    push_cast; ring
  have lo_s : ((s : ℚ) - 1 / 2) ^ 2 ≤ t := by rw [e1]; linarith
  have hi_s1 : t ≤ (((s + 1 : Nat) : ℚ) + 1 / 2) ^ 2 := by rw [e4]; linarith
  by_cases h1 : t < (s : ℚ) * s + s + 1 / 4
  · rw [if_pos h1] at hf
    exact key s lo_s (by rw [e2]; linarith) hf
  · rw [if_neg h1] at hf
    by_cases h2 : (s : ℚ) * s + s + 1 / 4 < t
    · rw [if_pos h2] at hf
      exact key (s + 1) (by rw [e3]; linarith) hi_s1 hf
    · rw [if_neg h2] at hf
      by_cases h4 : s % 2 = 0
      · rw [if_pos h4] at hf
        exact key s lo_s (by rw [e2]; exact not_lt.1 h2) hf
      · rw [if_neg h4] at hf
        exact key (s + 1) (by rw [e3]; exact not_lt.1 h1) hi_s1 hf

/-- For the ratio `2` (not used by `detect`) and base size 16: `sqrt(2)` is
`1.41421354`, `r_w = round(11.31) = 11` and `r_h = 22`. -/
theorem generate_anchors_ratio_two :
    generate_anchors 16 [2] [1] = [⟨-11 / 2, -11, 11 / 2, 11⟩] := by
  decide!

/-- The anchors for one ratio `1` and the scales `1, 2`. -/
theorem generate_anchors_eq (b : Int) :
    generate_anchors b [1] [1, 2]
      = [⟨-(b : ℚ) / 2, -(b : ℚ) / 2, (b : ℚ) / 2, (b : ℚ) / 2⟩,
         ⟨-(b : ℚ), -(b : ℚ), (b : ℚ), (b : ℚ)⟩] := by
  have h1 : fround ((b : ℚ) / fsqrt 1) = b := by
    rw [fsqrt_one, div_one]; exact fround_intCast b
  have h2 : fround ((b : ℚ) * 1) = b := by
    rw [mul_one]; exact fround_intCast b
  have r1 : List.range 1 = [0] := rfl
  have r2 : List.range 2 = [0, 1] := rfl
  simp only [generate_anchors, List.length_cons, List.length_nil, Nat.zero_add, r1, r2,
    List.foldl_cons, List.foldl_nil, List.getD_cons_zero, List.getD_cons_succ, h1, h2,
    Nat.reduceAdd, Nat.reduceMul, List.replicate, List.set_cons_zero, List.set_cons_succ,
    List.cons.injEq, Anchor.mk.injEq, and_true]
  refine ⟨⟨?_, ?_, ?_, ?_⟩, ⟨?_, ?_, ?_, ?_⟩⟩ <;> ring

/-- C14. For ratios `{1}`, scales `{1, 2}` and every `base_size` `b`, `generate_anchors`
returns exactly two rows, `(−b/2, −b/2, b/2, b/2)` followed by `(−b, −b, b, b)`: both
centered at the origin, the second with exactly double the width and height of the first,
in ratio-major, scale-minor order. -/
theorem C14_generate_anchors_rows (b : Int) :
    generate_anchors b [1] [1, 2]
      = [⟨-(b : ℚ) / 2, -(b : ℚ) / 2, (b : ℚ) / 2, (b : ℚ) / 2⟩,
         ⟨-(b : ℚ), -(b : ℚ), (b : ℚ), (b : ℚ)⟩] ∧
    (generate_anchors b [1] [1, 2]).length = 1 * 2 ∧
    (∀ a ∈ generate_anchors b [1] [1, 2], a.a0 + a.a2 = 0 ∧ a.a1 + a.a3 = 0) ∧
    (((generate_anchors b [1] [1, 2]).getD 1 default).a2
        - ((generate_anchors b [1] [1, 2]).getD 1 default).a0
      = 2 * (((generate_anchors b [1] [1, 2]).getD 0 default).a2
        - ((generate_anchors b [1] [1, 2]).getD 0 default).a0)) ∧
    (((generate_anchors b [1] [1, 2]).getD 1 default).a3
        - ((generate_anchors b [1] [1, 2]).getD 1 default).a1
      = 2 * (((generate_anchors b [1] [1, 2]).getD 0 default).a3
        - ((generate_anchors b [1] [1, 2]).getD 0 default).a1)) := by
  rw [generate_anchors_eq]
  refine ⟨rfl, rfl, ?_, ?_, ?_⟩
  · intro a ha
    simp only [List.mem_cons, List.mem_singleton, List.not_mem_nil, or_false] at ha
    rcases ha with rfl | rfl
    · constructor <;> ring
    · constructor <;> ring
  · simp only [List.getD_cons_zero, List.getD_cons_succ]; ring
  · simp only [List.getD_cons_zero, List.getD_cons_succ]; ring

/-! ## C15: letterbox geometry -/

theorem ftoi_nonneg (q : ℚ) (hq : 0 ≤ q) : 0 ≤ ftoi q := by
  unfold ftoi
  rw [if_pos hq]
  exact Int.floor_nonneg.2 hq

/-- What holds of the letterbox for every image with at least one pixel: the side tested
as longer becomes 120, the other side is not negative, both pads lie in `[0, 31]` and
complete the sides to multiples of 32, and the leading pad `pad / 2` is the floor of half
the pad, the trailing pad `pad − pad / 2` taking the remainder. -/
theorem letterbox_geometry (width height : Int) (hw : 1 ≤ width) (hh : 1 ≤ height) :
    (width > height → (letterbox width height).w = 120) ∧
    (¬ width > height → (letterbox width height).h = 120) ∧
    0 ≤ (letterbox width height).w ∧ 0 ≤ (letterbox width height).h ∧
    (0 ≤ (letterbox width height).wpad ∧ (letterbox width height).wpad ≤ 31 ∧
      ((letterbox width height).w + (letterbox width height).wpad) % 32 = 0) ∧
    (0 ≤ (letterbox width height).hpad ∧ (letterbox width height).hpad ≤ 31 ∧
      ((letterbox width height).h + (letterbox width height).hpad) % 32 = 0) ∧
    ((letterbox width height).wpad.tdiv 2 = (letterbox width height).wpad / 2 ∧
      (letterbox width height).wpad - (letterbox width height).wpad.tdiv 2
        = (letterbox width height).wpad.tdiv 2 + (letterbox width height).wpad % 2) ∧
    ((letterbox width height).hpad.tdiv 2 = (letterbox width height).hpad / 2 ∧
      (letterbox width height).hpad - (letterbox width height).hpad.tdiv 2
        = (letterbox width height).hpad.tdiv 2 + (letterbox width height).hpad % 2) := by
  have hfw : (0 : ℚ) ≤ f32 (width : ℚ) := le_of_lt (f32_int_pos width hw)
  have hfh : (0 : ℚ) ≤ f32 (height : ℚ) := le_of_lt (f32_int_pos height hh)
  have pad : ∀ n : Int, 0 ≤ n →
      (0 ≤ ((n + 31).tdiv 32) * 32 - n ∧ ((n + 31).tdiv 32) * 32 - n ≤ 31 ∧
        (n + (((n + 31).tdiv 32) * 32 - n)) % 32 = 0) ∧
      ((((n + 31).tdiv 32) * 32 - n).tdiv 2 = (((n + 31).tdiv 32) * 32 - n) / 2 ∧
        (((n + 31).tdiv 32) * 32 - n) - (((n + 31).tdiv 32) * 32 - n).tdiv 2
          = (((n + 31).tdiv 32) * 32 - n).tdiv 2 + (((n + 31).tdiv 32) * 32 - n) % 2) := by
    intro n hn
    have e1 : (n + 31).tdiv 32 = (n + 31) / 32 := Int.tdiv_eq_ediv (by omega) (by omega)
    rw [e1]
    have hp : 0 ≤ (n + 31) / 32 * 32 - n := by omega
    have e2 : ((n + 31) / 32 * 32 - n).tdiv 2 = ((n + 31) / 32 * 32 - n) / 2 :=
      Int.tdiv_eq_ediv hp (by omega)
    rw [e2]
    omega
  by_cases hc : width > height
  · have hside : 0 ≤ ftoi (f32 (f32 (height : ℚ)
        * f32 (((120 : Int) : ℚ) / f32 (width : ℚ)))) :=
      ftoi_nonneg _ (f32_nonneg _ (mul_nonneg hfh
        (f32_nonneg _ (div_nonneg (by norm_num) hfw))))
    have p1 := pad 120 (by omega)
    have p2 := pad _ hside
    simp only [letterbox, if_pos hc]
    exact ⟨fun _ => trivial, fun h => absurd hc h, by omega, hside, p1.1, p2.1, p1.2, p2.2⟩
  · have hside : 0 ≤ ftoi (f32 (f32 (width : ℚ)
        * f32 (((120 : Int) : ℚ) / f32 (height : ℚ)))) :=
      ftoi_nonneg _ (f32_nonneg _ (mul_nonneg hfw
        (f32_nonneg _ (div_nonneg (by norm_num) hfh))))
    have p1 := pad 120 (by omega)
    have p2 := pad _ hside
    simp only [letterbox, if_neg hc]
    exact ⟨fun h => absurd h hc, fun _ => trivial, hside, by omega, p2.1, p1.1, p2.2, p1.2⟩

/-- C15 at the failing input, a 29×29 image. `scale = 120.f / 29` rounds to
`4338935 / 2^20 = 4.1379308…`, the product `29 · scale = 119.999995…` rounds to
`15728639 / 2^17 = 119.999992…` and is truncated: the image is resized to 119×120 (pads 9
and 8), where `floor(29 · 120 / 29) = 120`. -/
theorem C15_letterbox_square_29 :
    (letterbox 29 29).scale = 4338935 / 1048576 ∧
    f32 (f32 29 * (letterbox 29 29).scale) = 15728639 / 131072 ∧
    (letterbox 29 29).w = 119 ∧ (letterbox 29 29).h = 120 ∧
    (letterbox 29 29).wpad = 9 ∧ (letterbox 29 29).hpad = 8 ∧
    ⌊((29 : ℚ) * 120 / 29)⌋ = 120 := by
  decide!

/-! ## C19: order of the faces `detect` returns -/

theorem remap_prob (width height : Int) (lb : Letterbox) (has_kps : Bool) (p : FaceObject) :
    (remap width height lb has_kps p).prob = p.prob := rfl

/-- C19. `detect` returns; its faces follow the post-NMS survivor order: `picked` is a
strictly increasing list of valid indices into the sorted proposals, `faceobjects[i]`
carries the prob of `faceproposals[picked[i]]`, and
`faceobjects[a].prob ≥ faceobjects[b].prob` for all `a < b`. -/
theorem C19_detect_descending (width height : Int) (has_kps : Bool) (net : DetectorOut)
    (fc1 : FaceObject → List ℚ) (pt nt : ℚ) (fo_in : List FaceObject)
    (fl_in : List LandmarkSet) :
    ∃ sorted out,
      qsort_descent_inplace (2 * (gather_proposals has_kps net pt).length + 2)
        (gather_proposals has_kps net pt) = some sorted ∧
      detect width height has_kps net fc1 pt nt fo_in fl_in = some out ∧
      (nms_sorted_bboxes sorted nt).Pairwise (· < ·) ∧
      (∀ k ∈ nms_sorted_bboxes sorted nt, k < sorted.length) ∧
      out.1.length = (nms_sorted_bboxes sorted nt).length ∧
      (∀ i, i < out.1.length →
        (out.1.getD i default).prob
          = (sorted.getD ((nms_sorted_bboxes sorted nt).getD i 0) default).prob) ∧
      (∀ a b, a < b → b < out.1.length →
        (out.1.getD a default).prob ≥ (out.1.getD b default).prob) := by
  obtain ⟨sorted, hq, _, hsorted, hd⟩ :=
    detect_spec width height has_kps net fc1 pt nt fo_in fl_in
  have hlen : (kept_faces width height has_kps sorted nt).length
      = (nms_sorted_bboxes sorted nt).length := by
    simp [kept_faces]
  have hprob : ∀ i, i < (nms_sorted_bboxes sorted nt).length →
      ((kept_faces width height has_kps sorted nt).getD i default).prob
        = (sorted.getD ((nms_sorted_bboxes sorted nt).getD i 0) default).prob := by
    intro i hi
    rw [List.getD_eq_getElem _ _ (by rw [hlen]; exact hi), List.getD_eq_getElem _ 0 hi]
    simp only [kept_faces, List.getElem_map]
    rfl
  have hvalid : ∀ k ∈ nms_sorted_bboxes sorted nt, k < sorted.length :=
    fun k hk => nms_mem_lt sorted nt k hk
  refine ⟨sorted, _, hq, hd, nms_pairwise sorted nt, hvalid, hlen, ?_, ?_⟩
  · intro i hi
    exact hprob i (by rw [← hlen]; exact hi)
  · intro a b hab hb
    have hb1 : b < (nms_sorted_bboxes sorted nt).length := by rw [← hlen]; exact hb
    have ha1 : a < (nms_sorted_bboxes sorted nt).length := by omega
    change ((kept_faces width height has_kps sorted nt).getD b default).prob
      ≤ ((kept_faces width height has_kps sorted nt).getD a default).prob
    rw [hprob a ha1, hprob b hb1, List.getD_eq_getElem _ 0 ha1, List.getD_eq_getElem _ 0 hb1]
    have hlt := List.pairwise_iff_getElem.1 (nms_pairwise sorted nt) a b ha1 hb1 hab
    exact hsorted _ _ hlt (hvalid _ (List.getElem_mem _))

/-! ## C20: the sort terminates and stays in bounds -/

/-- C20. For every non-empty vector of `n` FaceObjects and fuel `2n + 2`,
`qsort_descent_inplace(v, 0, n − 1)` returns, and the run with the monitor returns the
same vector: no read of the scans, of the pivot or of the swap falls outside `[left,
right]` of its call, and every recursive call is on a strictly smaller sub-range
(`j < right`, `i > left`). -/
theorem C20_qsort_terminates_in_bounds (v : List FaceObject) (fuel : Nat) (hv : v ≠ [])
    (hf : 2 * v.length + 2 ≤ fuel) :
    ∃ w, qsort_descent_inplace_range fuel v 0 ((v.length : Int) - 1) = some w ∧
      qsort_range_in fuel v 0 ((v.length : Int) - 1) = some w ∧
      qsort_descent_inplace fuel v = some w := by
  have hpos : 0 < v.length := List.length_pos.2 hv
  obtain ⟨w, hw, _, _, hmon⟩ :=
    qsort_range_spec fuel v 0 ((v.length : Int) - 1) (le_refl _) (by omega) (by omega)
      (by omega)
  refine ⟨w, hw, hmon, ?_⟩
  unfold qsort_descent_inplace
  have he : ¬ v.isEmpty = true := by
    intro h
    exact hv (List.isEmpty_iff.1 h)
  rw [if_neg he]
  exact hw

/-- C20 on the three candidates with probabilities `0.3, 0.9, 0.5`. -/
theorem C20_qsort_terminates_in_bounds_witness :
    ∃ w, qsort_descent_inplace_range 8
        [⟨⟨0, 0, 1, 1⟩, FaceObject.zero.landmark, 3 / 10⟩,
         ⟨⟨0, 0, 1, 1⟩, FaceObject.zero.landmark, 9 / 10⟩,
         ⟨⟨0, 0, 1, 1⟩, FaceObject.zero.landmark, 5 / 10⟩] 0 ((3 : Int) - 1) = some w ∧
      qsort_range_in 8
        [⟨⟨0, 0, 1, 1⟩, FaceObject.zero.landmark, 3 / 10⟩,
         ⟨⟨0, 0, 1, 1⟩, FaceObject.zero.landmark, 9 / 10⟩,
         ⟨⟨0, 0, 1, 1⟩, FaceObject.zero.landmark, 5 / 10⟩] 0 ((3 : Int) - 1) = some w ∧
      qsort_descent_inplace 8
        [⟨⟨0, 0, 1, 1⟩, FaceObject.zero.landmark, 3 / 10⟩,
         ⟨⟨0, 0, 1, 1⟩, FaceObject.zero.landmark, 9 / 10⟩,
         ⟨⟨0, 0, 1, 1⟩, FaceObject.zero.landmark, 5 / 10⟩] = some w :=
  C20_qsort_terminates_in_bounds
    [⟨⟨0, 0, 1, 1⟩, FaceObject.zero.landmark, 3 / 10⟩,
     ⟨⟨0, 0, 1, 1⟩, FaceObject.zero.landmark, 9 / 10⟩,
     ⟨⟨0, 0, 1, 1⟩, FaceObject.zero.landmark, 5 / 10⟩] 8 (by simp) (by decide)

/-! ## C21: the sort only reorders -/

/-- C21. For every vector of FaceObjects, `qsort_descent_inplace` (run with enough fuel,
`2n + 2` for `n` elements) returns a permutation of its input: every whole FaceObject
(rect, landmarks and prob together) occurs in the result as often as in the input, and
the length is unchanged. -/
theorem C21_qsort_descent_permutation (v : List FaceObject) (fuel : Nat)
    (hf : 2 * v.length + 2 ≤ fuel) :
    ∃ w, qsort_descent_inplace fuel v = some w ∧ w.Perm v ∧ w.length = v.length ∧
      ∀ o : FaceObject, w.count o = v.count o := by
  obtain ⟨w, hw, hp, hl, _⟩ := qsort_descent_inplace_spec v fuel hf
  exact ⟨w, hw, hp, hl, fun o => hp.count_eq o⟩

/-- C21 on three candidates with different rects, landmarks and probabilities
`0.3, 0.9, 0.5`: the result is the three candidates in the order `0.9, 0.5, 0.3`, each
with its own rect and landmarks. -/
theorem C21_qsort_descent_permutation_witness :
    (∃ w, qsort_descent_inplace 8
        [⟨⟨0, 0, 1, 1⟩, ⟨⟨1, 1⟩, ⟨1, 1⟩, ⟨1, 1⟩, ⟨1, 1⟩, ⟨1, 1⟩⟩, 3 / 10⟩,
         ⟨⟨5, 5, 2, 2⟩, ⟨⟨2, 2⟩, ⟨2, 2⟩, ⟨2, 2⟩, ⟨2, 2⟩, ⟨2, 2⟩⟩, 9 / 10⟩,
         ⟨⟨9, 9, 3, 3⟩, ⟨⟨3, 3⟩, ⟨3, 3⟩, ⟨3, 3⟩, ⟨3, 3⟩, ⟨3, 3⟩⟩, 5 / 10⟩] = some w ∧
      w.Perm
        [⟨⟨0, 0, 1, 1⟩, ⟨⟨1, 1⟩, ⟨1, 1⟩, ⟨1, 1⟩, ⟨1, 1⟩, ⟨1, 1⟩⟩, 3 / 10⟩,
         ⟨⟨5, 5, 2, 2⟩, ⟨⟨2, 2⟩, ⟨2, 2⟩, ⟨2, 2⟩, ⟨2, 2⟩, ⟨2, 2⟩⟩, 9 / 10⟩,
         ⟨⟨9, 9, 3, 3⟩, ⟨⟨3, 3⟩, ⟨3, 3⟩, ⟨3, 3⟩, ⟨3, 3⟩, ⟨3, 3⟩⟩, 5 / 10⟩] ∧
      w.length = 3 ∧
      ∀ o : FaceObject, w.count o =
        List.count o
          [⟨⟨0, 0, 1, 1⟩, ⟨⟨1, 1⟩, ⟨1, 1⟩, ⟨1, 1⟩, ⟨1, 1⟩, ⟨1, 1⟩⟩, 3 / 10⟩,
           ⟨⟨5, 5, 2, 2⟩, ⟨⟨2, 2⟩, ⟨2, 2⟩, ⟨2, 2⟩, ⟨2, 2⟩, ⟨2, 2⟩⟩, 9 / 10⟩,
           ⟨⟨9, 9, 3, 3⟩, ⟨⟨3, 3⟩, ⟨3, 3⟩, ⟨3, 3⟩, ⟨3, 3⟩, ⟨3, 3⟩⟩, 5 / 10⟩]) ∧
    qsort_descent_inplace 8
        [⟨⟨0, 0, 1, 1⟩, ⟨⟨1, 1⟩, ⟨1, 1⟩, ⟨1, 1⟩, ⟨1, 1⟩, ⟨1, 1⟩⟩, 3 / 10⟩,
         ⟨⟨5, 5, 2, 2⟩, ⟨⟨2, 2⟩, ⟨2, 2⟩, ⟨2, 2⟩, ⟨2, 2⟩, ⟨2, 2⟩⟩, 9 / 10⟩,
         ⟨⟨9, 9, 3, 3⟩, ⟨⟨3, 3⟩, ⟨3, 3⟩, ⟨3, 3⟩, ⟨3, 3⟩, ⟨3, 3⟩⟩, 5 / 10⟩]
      = some
        [⟨⟨5, 5, 2, 2⟩, ⟨⟨2, 2⟩, ⟨2, 2⟩, ⟨2, 2⟩, ⟨2, 2⟩, ⟨2, 2⟩⟩, 9 / 10⟩,
         ⟨⟨9, 9, 3, 3⟩, ⟨⟨3, 3⟩, ⟨3, 3⟩, ⟨3, 3⟩, ⟨3, 3⟩, ⟨3, 3⟩⟩, 5 / 10⟩,
         ⟨⟨0, 0, 1, 1⟩, ⟨⟨1, 1⟩, ⟨1, 1⟩, ⟨1, 1⟩, ⟨1, 1⟩, ⟨1, 1⟩⟩, 3 / 10⟩] :=
  ⟨C21_qsort_descent_permutation
    [⟨⟨0, 0, 1, 1⟩, ⟨⟨1, 1⟩, ⟨1, 1⟩, ⟨1, 1⟩, ⟨1, 1⟩, ⟨1, 1⟩⟩, 3 / 10⟩,
     ⟨⟨5, 5, 2, 2⟩, ⟨⟨2, 2⟩, ⟨2, 2⟩, ⟨2, 2⟩, ⟨2, 2⟩, ⟨2, 2⟩⟩, 9 / 10⟩,
     ⟨⟨9, 9, 3, 3⟩, ⟨⟨3, 3⟩, ⟨3, 3⟩, ⟨3, 3⟩, ⟨3, 3⟩, ⟨3, 3⟩⟩, 5 / 10⟩] 8 (by decide),
   by decide!⟩

/-! ## C22: the scale of `pre_process` on the faces of `detect` -/

theorem ftoi_ge_one_iff (q : ℚ) : 1 ≤ ftoi q ↔ 1 ≤ q := by
  unfold ftoi
  split
  · constructor
    · intro h
      have h1 : ((1 : Int) : ℚ) ≤ q := Int.le_floor.1 h
      exact_mod_cast h1
    · intro h
      exact Int.le_floor.2 (by exact_mod_cast h)
  · next hneg =>
    have hq : q < 0 := not_le.1 hneg
    constructor
    · intro h
      have h0 : ⌈q⌉ ≤ 0 := Int.ceil_le.2 (by exact_mod_cast hq.le)
      omega
    · intro h
      linarith

theorem max_ftoi_ge_one_iff (r : Rect) :
    1 ≤ max (ftoi r.width) (ftoi r.height) ↔ (1 ≤ r.width ∨ 1 ≤ r.height) := by
  rw [le_max_iff, ftoi_ge_one_iff, ftoi_ge_one_iff]

/-- The matrix of `pre_process` when the larger truncated side `m` is not zero: the scale
`192 / (m × 1.5)` on the diagonal, whose sign is the sign of `m`. -/
theorem pre_process_scale (det : FaceObject)
    (h : max (ftoi det.rect.width) (ftoi det.rect.height) ≠ 0) :
    ∃ M, pre_process 192 det = some M ∧
      M.m00 = 192 / (((max (ftoi det.rect.width) (ftoi det.rect.height) : Int) : ℚ) * (3 / 2)) ∧
      M.m11 = M.m00 ∧ M.m01 = 0 ∧ M.m10 = 0 := by
  have hp : pre_process 192 det = some
      ⟨192 / (((max (ftoi det.rect.width) (ftoi det.rect.height) : Int) : ℚ) * (3 / 2)), 0,
        -(((ftoi det.rect.x + (ftoi det.rect.width).tdiv 2 : Int) : ℚ) *
          (192 / (((max (ftoi det.rect.width) (ftoi det.rect.height) : Int) : ℚ) * (3 / 2))))
          + 96, 0,
        192 / (((max (ftoi det.rect.width) (ftoi det.rect.height) : Int) : ℚ) * (3 / 2)),
        -(((ftoi det.rect.y + (ftoi det.rect.height).tdiv 2 : Int) : ℚ) *
          (192 / (((max (ftoi det.rect.width) (ftoi det.rect.height) : Int) : ℚ) * (3 / 2))))
          + 96⟩ := by
    simp only [pre_process, if_neg h, half_192, Option.some.injEq, Affine.mk.injEq]
    refine ⟨?_, ?_, ?_, ?_, ?_, ?_⟩ <;> push_cast <;> ring_nf
  exact ⟨_, hp, rfl, rfl, rfl, rfl⟩

theorem pre_process_none (det : FaceObject)
    (h : max (ftoi det.rect.width) (ftoi det.rect.height) = 0) :
    pre_process 192 det = none := by
  simp only [pre_process, if_pos h]

theorem invertAffineTransform_apply (M : Affine) (q : Point2f)
    (hD : M.m00 * M.m11 - M.m01 * M.m10 ≠ 0) :
    (invertAffineTransform M).apply (M.apply q) = q := by
  cases M with
  | mk a b c d e f =>
    cases q with
    | mk x y =>
      simp only [] at hD
      simp only [invertAffineTransform, if_pos hD, Affine.apply, Point2f.mk.injEq]
      constructor <;> field_simp <;> ring

/-- C22 at the failing input: a 120×90 image whose detector output has one cell scoring
0.95 at stride 16 with all four bbox offsets `0`. The decoded box `(0, 0, 1, 1)` lies in
the padding of the letterbox (`wpad / 2 = 4`, `hpad / 2 = 3`), all four corners clamp to
`0` and the face rect is `(0, 0, 0, 0)`. `detect` hands this face to `pre_process`, where
`MAX(int(width), int(height)) = 0`: the division is by zero and the landmark entry of the
face is not a finite matrix. -/
theorem C22_detect_divides_by_zero :
    (detect 120 90 false (one_cell_net (95 / 100) 0) (fun _ => []) (1 / 2) (45 / 100) []
        []).map (fun out => (out.1.map (fun o => o.rect), out.2))
      = some ([⟨0, 0, 0, 0⟩], [none]) ∧
    max (ftoi (0 : ℚ)) (ftoi (0 : ℚ)) = 0 ∧
    ∀ det : FaceObject, det.rect = ⟨0, 0, 0, 0⟩ → pre_process 192 det = none := by
  refine ⟨by decide!, by decide!, ?_⟩
  intro det hdet
  apply pre_process_none
  rw [hdet]
  decide!

/-- What holds of the faces `detect` hands to `pre_process` (the landmark entries appended
are those of the faces, in order): for a face with
`m = MAX(int(rect.width), int(rect.height))` not zero, `pre_process` returns a finite
matrix with `_scale = 192 / (m × 1.5)`, the matrix is invertible, and `_scale` is positive
exactly when `rect.width ≥ 1` or `rect.height ≥ 1`. -/
theorem detect_pre_process_scale (width height : Int) (has_kps : Bool) (net : DetectorOut)
    (fc1 : FaceObject → List ℚ) (pt nt : ℚ) (fo_in : List FaceObject)
    (fl_in : List LandmarkSet) :
    ∃ out, detect width height has_kps net fc1 pt nt fo_in fl_in = some out ∧
      out.2 = fl_in ++ out.1.map (face_landmarks fc1) ∧
      ∀ face ∈ out.1, max (ftoi face.rect.width) (ftoi face.rect.height) ≠ 0 →
        ∃ M, pre_process 192 face = some M ∧
          M.m00 = 192 /
            (((max (ftoi face.rect.width) (ftoi face.rect.height) : Int) : ℚ) * (3 / 2)) ∧
          M.m00 * M.m11 - M.m01 * M.m10 ≠ 0 ∧
          (∀ q : Point2f, (invertAffineTransform M).apply (M.apply q) = q) ∧
          (0 < M.m00 ↔ (1 ≤ face.rect.width ∨ 1 ≤ face.rect.height)) := by
  obtain ⟨sorted, _, _, _, hd⟩ := detect_spec width height has_kps net fc1 pt nt fo_in fl_in
  refine ⟨_, hd, rfl, ?_⟩
  intro face _ hne
  obtain ⟨M, hM, hs, h11, h01, h10⟩ := pre_process_scale face hne
  have hq : ((max (ftoi face.rect.width) (ftoi face.rect.height) : Int) : ℚ) ≠ 0 := by
    exact_mod_cast hne
  have hs0 : M.m00 ≠ 0 := by
    rw [hs]
    exact div_ne_zero (by norm_num) (mul_ne_zero hq (by norm_num))
  have hD : M.m00 * M.m11 - M.m01 * M.m10 ≠ 0 := by
    rw [h11, h01, h10, zero_mul, sub_zero]
    exact mul_ne_zero hs0 hs0
  refine ⟨M, hM, hs, hD, fun q => invertAffineTransform_apply M q hD, ?_⟩
  rw [← max_ftoi_ge_one_iff, hs]
  constructor
  · intro hpos
    have hden : 0 <
        ((max (ftoi face.rect.width) (ftoi face.rect.height) : Int) : ℚ) * (3 / 2) := by
      by_contra hcon
      have hle := not_lt.1 hcon
      have := div_nonpos_of_nonneg_of_nonpos (by norm_num : (0 : ℚ) ≤ 192) hle
      linarith
    have hm : (0 : ℚ) < ((max (ftoi face.rect.width) (ftoi face.rect.height) : Int) : ℚ) := by
      nlinarith
    have hm1 : (0 : Int) < max (ftoi face.rect.width) (ftoi face.rect.height) := by
      exact_mod_cast hm
    omega
  · intro hge
    have hm : (1 : ℚ) ≤ ((max (ftoi face.rect.width) (ftoi face.rect.height) : Int) : ℚ) := by
      exact_mod_cast hge
    positivity

end SCRFD
